import Mathlib

/-!
Verification development for the `yatta` client library.

Strings are modelled as `List Char`. The Python string primitives used by the
library (`in`, `str.find`, `str.replace`, indexing, `str(int)`) are embedded as
executable Lean functions, and the text-normalisation utilities
(`format_str`, `find_next_letter`, `replace_placeholders`, `replace_pronouns`,
`remove_ruby_tags`), the icon-URL derivations, the key-parsing collection
conversions and the request/version pipeline are translated from the source.
Python exceptions (IndexError from out-of-range indexing, ValueError from
`int(...)`) are modelled by `Option`/failure values.
-/

namespace Yatta

/-- The character `{` (written via its code point to keep string literals plain). -/
def lbrace : Char := Char.ofNat 123

/-- The character `}`. -/
def rbrace : Char := Char.ofNat 125

/-- If `pat` is a leading segment of `s`, return the remainder of `s`; else `none`. -/
def dropPre : List Char → List Char → Option (List Char)
  | [], s => some s
  | _ :: _, [] => none
  | p :: ps, c :: t => if p = c then dropPre ps t else none

/-- Boolean test: does `s` start with `pat`? -/
def isPre (pat s : List Char) : Bool := (dropPre pat s).isSome

/-- Python `pat in s`: does `pat` occur as a contiguous substring of `s`? -/
def containsSub (pat : List Char) : List Char → Bool
  | [] => isPre pat []
  | c :: t => isPre pat (c :: t) || containsSub pat t

/-- Python `s.find(pat)`: index of the first occurrence of `pat` in `s`. -/
def findSub (pat : List Char) : List Char → Option Nat
  | [] => if isPre pat [] then some 0 else none
  | c :: t => if isPre pat (c :: t) then some 0 else (findSub pat t).map (· + 1)

/-- Fuelled worker for Python `s.replace(pat, rep)` (all non-overlapping
occurrences, scanning left to right, the replacement text not rescanned).
Fuel `≥ s.length` makes it total for nonempty `pat`. -/
def replaceAllF (pat rep : List Char) : Nat → List Char → List Char
  | 0, s => s
  | _ + 1, [] => []
  | f + 1, c :: t =>
    match dropPre pat (c :: t) with
    | some rest => rep ++ replaceAllF pat rep f rest
    | none => c :: replaceAllF pat rep f t

/-- Python `s.replace(pat, rep)` for nonempty `pat`. -/
def replaceAll (pat rep s : List Char) : List Char := replaceAllF pat rep s.length s

/-- Fuelled worker for `re.sub(p, repl, s)` where the matcher `m` reports the
length of the match of `p` at the head of its argument (our patterns never
match the empty string, so reported lengths are at least 1). -/
def subAllF (m : List Char → Option Nat) (repl : List Char) : Nat → List Char → List Char
  | 0, s => s
  | _ + 1, [] => []
  | f + 1, c :: t =>
    match m (c :: t) with
    | some n => repl ++ subAllF m repl f ((c :: t).drop n)
    | none => c :: subAllF m repl f t

/-- `re.sub` with matcher `m` and literal replacement `repl`. -/
def subAll (m : List Char → Option Nat) (repl s : List Char) : List Char :=
  subAllF m repl s.length s

/-- Does the matcher `m` fire at some position of `s`? -/
def anyMatch (m : List Char → Option Nat) : List Char → Bool
  | [] => (m []).isSome
  | c :: t => (m (c :: t)).isSome || anyMatch m t

/-- Decimal digit character for `n < 10`. -/
def digitChar (n : Nat) : Char := Char.ofNat (48 + n)

/-- Fuelled decimal rendering of a natural number (most significant first). -/
def natCharsF : Nat → Nat → List Char
  | 0, _ => []
  | f + 1, n => if n < 10 then [digitChar n] else natCharsF f (n / 10) ++ [digitChar (n % 10)]

/-- Decimal rendering of a natural number, as Python `str` produces it. -/
def natChars (n : Nat) : List Char := natCharsF (n + 1) n

/-- Python `str(v)` for an integer `v`. -/
def intChars : Int → List Char
  | .ofNat n => natChars n
  | .negSucc n => '-' :: natChars (n + 1)

/-- A decidable sufficient condition on a chunk of text: the pattern cannot
begin at any position of the chunk, whatever text follows the chunk. -/
def chunkSafe (pat : List Char) : List Char → Bool
  | [] => true
  | c :: ch => !(isPre (pat.take (ch.length + 1)) (c :: ch)) && chunkSafe pat ch

/-- A decidable condition: no nonempty proper tail of `pat` can begin the
text `png`, so an occurrence of `pat` cannot straddle the boundary between
some text and an appended `png`. -/
def straddleFree (pat png : List Char) : Bool :=
  (List.range pat.length).all fun n => n == 0 || !(isPre (pat.drop n) png)

/-! Embedding of `yatta/utils.py`. -/
/-- The token opening a female pronoun tag. -/
def fOpen : List Char := [lbrace, 'F', '#']

/-- The token opening a male pronoun tag. -/
def mOpen : List Char := [lbrace, 'M', '#']

/-- Index of the first closing brace, failing at a newline first: the content
matched by a lazy `.*?` in front of a literal brace. -/
def scanStop : List Char → Option Nat
  | [] => none
  | c :: t => if c = rbrace then some 0 else if c = '\n' then none else (scanStop t).map (· + 1)

/-- Index of the first closing brace, newlines allowed (a `[^}]*` body). -/
def scanRb : List Char → Option Nat
  | [] => none
  | c :: t => if c = rbrace then some 0 else (scanRb t).map (· + 1)

/-- Match a `{F#...}` / `{M#...}` style token at the head of `s`, returning the
captured content and the total length of the match. -/
def matchTok (opn s : List Char) : Option (List Char × Nat) :=
  match dropPre opn s with
  | none => none
  | some rest =>
    match scanStop rest with
    | none => none
    | some i => some (rest.take i, opn.length + i + 1)

/-- Python `re.search` for a pronoun pattern: content of the leftmost match. -/
def searchTok (opn : List Char) : List Char → Option (List Char)
  | [] => none
  | c :: t =>
    match matchTok opn (c :: t) with
    | some r => some r.1
    | none => searchTok opn t

/-- Match length of the female pronoun pattern at the head of the text. -/
def fLen (s : List Char) : Option Nat := (matchTok fOpen s).map (·.2)

/-- Match length of the male pronoun pattern at the head of the text. -/
def mLen (s : List Char) : Option Nat := (matchTok mOpen s).map (·.2)

/-- The literal-replacement model of `replace_pronouns` from `utils.py`: when
both a female and a male token are present, replace every female token by
`female/male`, delete every male token, and strip all remaining `#`
characters; otherwise return the text unchanged. It is exact whenever the
two phrases are free of backslashes (see `replace_pronouns_full`, the
faithful embedding that also carries `re.sub`'s processing of the
replacement string as a template, and `replace_pronouns_full_eq`). -/
def replace_pronouns (s : List Char) : List Char :=
  match searchTok fOpen s, searchTok mOpen s with
  | some a, some b =>
    List.filter (fun c => c != '#') (subAll mLen [] (subAll fLen (a ++ '/' :: b) s))
  | _, _ => s

/-- Index of the first closing angle bracket, failing at a newline first. -/
def scanGt : List Char → Option Nat
  | [] => none
  | c :: t => if c = '>' then some 0 else if c = '\n' then none else (scanGt t).map (· + 1)

/-- Length of a `<.*?>` match at the head of the text: an opening angle
bracket closed by the first later closing bracket on the same line. -/
def matchTag : List Char → Option Nat
  | [] => none
  | c :: t => if c = '<' then (scanGt t).map (· + 2) else none

/-- The sprite-preset opening literal. -/
def spriteOpen : List Char := lbrace :: ('S' :: 'P' :: 'R' :: 'I' :: 'T' :: 'E' :: '_'
  :: 'P' :: 'R' :: 'E' :: 'S' :: 'E' :: 'T' :: '#' :: [])

/-- Length of a sprite-preset token match at the head of the text. -/
def matchSprite (s : List Char) : Option Nat :=
  match dropPre spriteOpen s with
  | none => none
  | some rest =>
    match scanRb rest with
    | none => none
    | some i => if i = 0 then none else some (spriteOpen.length + i + 1)

/-- Matcher of the cleaning regex in `format_str`: an HTML-like tag or a
sprite-preset token, whichever fires at this position. -/
def matchClean (s : List Char) : Option Nat :=
  match matchTag s with
  | some n => some n
  | none => matchSprite s

/-- The ruby opening literal. -/
def rubyBOpen : List Char := lbrace :: ('R' :: 'U' :: 'B' :: 'Y' :: '_' :: 'B' :: [])

/-- The full ruby closing token. -/
def rubyE : List Char := lbrace :: ('R' :: 'U' :: 'B' :: 'Y' :: '_' :: 'E' :: '#' :: rbrace :: [])

/-- Length of a `{RUBY_B...}` match at the head of the text (its body is
`[^}]*`, so the first closing brace ends it and may come immediately). -/
def matchRubyB (s : List Char) : Option Nat :=
  match dropPre rubyBOpen s with
  | none => none
  | some rest =>
    match scanRb rest with
    | none => none
    | some i => some (rubyBOpen.length + i + 1)

/-- `remove_ruby_tags` from `utils.py`. -/
def remove_ruby_tags (s : List Char) : List Char :=
  subAll matchRubyB [] (replaceAll rubyE [] s)

/-- The two-character literal backslash-n. -/
def bsn : List Char := ['\\', 'n']

/-- `format_str` from `utils.py`: strip tags and sprite tokens, unescape
literal backslash-n, resolve pronouns, then remove ruby tags. -/
def format_str (s : List Char) : List Char :=
  remove_ruby_tags (replace_pronouns (replaceAll bsn ['\n'] (subAll matchClean [] s)))

/-- `find_next_letter` from `utils.py`: the character just after the first
occurrence of the placeholder (Python raises IndexError, here `none`, when
that position is past the end of the string). -/
def find_next_letter (text pat : List Char) : Option Char :=
  match findSub pat text with
  | some i => text[i + pat.length]?
  | none => text[pat.length - 1]?

/-- The positional placeholder literal `#i[<idx>]`. -/
def phList (i : Nat) : List Char := '#' :: 'i' :: '[' :: (natChars i ++ [']'])

/-- The keyed placeholder literal `#<key>[i]`. -/
def phKey (k : List Char) : List Char := '#' :: (k ++ ['[', 'i', ']'])

/-- The loop body of `replace_placeholders` for list parameters: for each
index in order, if its token occurs, look at the character after the first
occurrence (failure propagates), multiply by 100 on `%`, and replace all
occurrences with the stringified value. -/
def goList : List Int → Nat → List Char → Option (List Char)
  | [], _, s => some s
  | v :: vs, i, s =>
    if containsSub (phList i) s then
      match find_next_letter s (phList i) with
      | none => none
      | some c =>
        goList vs (i + 1) (replaceAll (phList i) (intChars (if c = '%' then v * 100 else v)) s)
    else goList vs (i + 1) s

/-- The loop body of `replace_placeholders` for dict parameters: for each
key in order, take the head of its value list (failure if empty), and
substitute like the positional branch. -/
def goDict : List (List Char × List Int) → List Char → Option (List Char)
  | [], s => some s
  | (k, vs) :: rest, s =>
    match vs.head? with
    | none => none
    | some v =>
      if containsSub (phKey k) s then
        match find_next_letter s (phKey k) with
        | none => none
        | some c =>
          goDict rest (replaceAll (phKey k) (intChars (if c = '%' then v * 100 else v)) s)
      else goDict rest s

/-- The `params` argument of `replace_placeholders`: `None`, a positional
list, or a keyed mapping in insertion order. -/
inductive Params where
  | noneP : Params
  | posP (ps : List Int) : Params
  | keyP (kvs : List (List Char × List Int)) : Params

/-- `replace_placeholders` from `utils.py` (exceptions modelled as `none`). -/
def replace_placeholders (s : List Char) : Params → Option (List Char)
  | .noneP => some s
  | .posP ps => goList ps 0 s
  | .keyP kvs => goDict kvs s

/-- The eidolon description validator of `models/character.py`:
`replace_placeholders(format_str(v), params)`. -/
def eidolon_description (v : List Char) (p : Params) : Option (List Char) :=
  replace_placeholders (format_str v) p

/-! Faithful embedding of `re.sub`'s replacement-template processing
(CPython `re._parser.parse_template`), needed because the female
substitution of `replace_pronouns` passes the matched phrases as the
replacement string: backslash escapes in it are translated, `\1`-style
group references expand per match site, and bad escapes raise `re.error`. -/
/-- One item of a parsed replacement template: a literal character or a
reference to a capture group of the pattern. -/
inductive Tpl where
  | lit (c : Char) : Tpl
  | grp (i : Nat) : Tpl
deriving DecidableEq

/-- Value of a decimal digit character. -/
def dv (c : Char) : Nat := c.toNat - 48

/-- Is the character an octal digit? -/
def isOct (c : Char) : Bool := c.isDigit && c.toNat ≤ 55

/-- The replacement-template escape table (backslash before one of
`a b f n r t v` or a second backslash). -/
def escChar : Char → Option Char
  | 'a' => some (Char.ofNat 7)
  | 'b' => some (Char.ofNat 8)
  | 'f' => some (Char.ofNat 12)
  | 'n' => some (Char.ofNat 10)
  | 'r' => some (Char.ofNat 13)
  | 't' => some (Char.ofNat 9)
  | 'v' => some (Char.ofNat 11)
  | '\\' => some '\\'
  | _ => none

/-- ASCII whitespace stripped by Python `int()` around a group name. -/
def pySpace (c : Char) : Bool :=
  c = ' ' || c = Char.ofNat 9 || c = Char.ofNat 10 || c = Char.ofNat 13
    || c = Char.ofNat 11 || c = Char.ofNat 12

/-- Digits of a group name after the first, underscores allowed singly
between digits as Python `int()` accepts them. -/
def intNameGo : List Char → Nat → Option Nat
  | [], acc => some acc
  | '_' :: c :: rest, acc =>
    if c.isDigit then intNameGo rest (10 * acc + dv c) else none
  | c :: rest, acc => if c.isDigit then intNameGo rest (10 * acc + dv c) else none

/-- Python `int(name)` on a `\g<...>` group name: optional surrounding
whitespace and a leading `+`, then digits with single interior underscores
(a negative or otherwise unparseable name is an error, hence `none`). -/
def intName (name : List Char) : Option Nat :=
  match (name.dropWhile pySpace).reverse.dropWhile pySpace |>.reverse with
  | [] => none
  | '+' :: c :: rest => if c.isDigit then intNameGo rest (dv c) else none
  | c :: rest => if c.isDigit then intNameGo rest (dv c) else none

/-- Split at the first `>`: the group name before it and the remainder
after it, `none` when no `>` follows (an unterminated group name). -/
def splitAtGt : List Char → Option (List Char × List Char)
  | [] => none
  | c :: t =>
    if c = '>' then some ([], t)
    else (splitAtGt t).map (fun p => (c :: p.1, p.2))

/-- Fuelled worker parsing a replacement template against a pattern with
`groups` capture groups, as CPython `parse_template` does: `\\g<name>` and
`\\1`..`\\99` become group references checked against `groups`, `\\0` and
octal digit runs become character escapes (values over 0o377 are errors),
the escape table translates letter escapes, any other escaped ASCII letter
is an error, and an escaped non-letter keeps both characters. `none` is
`re.error` (or the `IndexError` of an unknown group name). -/
def parseTemplateF (groups : Nat) : Nat → List Char → Option (List Tpl)
  | 0, _ => none
  | _ + 1, [] => some []
  | f + 1, c :: rest =>
    if c = '\\' then
      match rest with
      | [] => none
      | 'g' :: r2 =>
        match r2 with
        | '<' :: r3 =>
          match splitAtGt r3 with
          | none => none
          | some (name, r4) =>
            match intName name with
            | none => none
            | some i =>
              if i ≤ groups then (parseTemplateF groups f r4).map (Tpl.grp i :: ·)
              else none
        | _ => none
      | '0' :: r2 =>
        match r2 with
        | d2 :: d3 :: r4 =>
          if isOct d2 then
            if isOct d3 then
              (parseTemplateF groups f r4).map
                (Tpl.lit (Char.ofNat (8 * dv d2 + dv d3)) :: ·)
            else
              (parseTemplateF groups f (d3 :: r4)).map
                (Tpl.lit (Char.ofNat (dv d2)) :: ·)
          else
            (parseTemplateF groups f (d2 :: d3 :: r4)).map (Tpl.lit (Char.ofNat 0) :: ·)
        | [d2] =>
          if isOct d2 then
            (parseTemplateF groups f []).map (Tpl.lit (Char.ofNat (dv d2)) :: ·)
          else (parseTemplateF groups f [d2]).map (Tpl.lit (Char.ofNat 0) :: ·)
        | [] => (parseTemplateF groups f []).map (Tpl.lit (Char.ofNat 0) :: ·)
      | d1 :: r2 =>
        if d1.isDigit then
          match r2 with
          | d2 :: r3 =>
            if d2.isDigit then
              match r3 with
              | d3 :: r4 =>
                if isOct d1 && isOct d2 && isOct d3 then
                  if 64 * dv d1 + 8 * dv d2 + dv d3 > 255 then none
                  else
                    (parseTemplateF groups f r4).map
                      (Tpl.lit (Char.ofNat (64 * dv d1 + 8 * dv d2 + dv d3)) :: ·)
                else
                  if 10 * dv d1 + dv d2 ≤ groups then
                    (parseTemplateF groups f (d3 :: r4)).map
                      (Tpl.grp (10 * dv d1 + dv d2) :: ·)
                  else none
              | [] =>
                if 10 * dv d1 + dv d2 ≤ groups then
                  (parseTemplateF groups f []).map (Tpl.grp (10 * dv d1 + dv d2) :: ·)
                else none
            else
              if dv d1 ≤ groups then
                (parseTemplateF groups f (d2 :: r3)).map (Tpl.grp (dv d1) :: ·)
              else none
          | [] =>
            if dv d1 ≤ groups then
              (parseTemplateF groups f []).map (Tpl.grp (dv d1) :: ·)
            else none
        else
          match escChar d1 with
          | some e => (parseTemplateF groups f r2).map (Tpl.lit e :: ·)
          | none =>
            if d1.isAlpha then none
            else (parseTemplateF groups f r2).map (fun l => Tpl.lit '\\' :: Tpl.lit d1 :: l)
    else (parseTemplateF groups f rest).map (Tpl.lit c :: ·)

/-- Parse a replacement template (fuel made sufficient). -/
def parseTemplate (groups : Nat) (t : List Char) : Option (List Tpl) :=
  parseTemplateF groups (t.length + 1) t

/-- Expand a parsed template at one match site: `g0` is the whole match
(group 0), `g1` the content of the single capture group of the pronoun
patterns. -/
def expandTpl (g0 g1 : List Char) : List Tpl → List Char
  | [] => []
  | Tpl.lit c :: r => c :: expandTpl g0 g1 r
  | Tpl.grp 0 :: r => g0 ++ expandTpl g0 g1 r
  | Tpl.grp (_ + 1) :: r => g1 ++ expandTpl g0 g1 r

/-- Fuelled worker for `re.sub` of a pronoun pattern with a replacement
template: each match is replaced by the template expanded at that site. -/
def subTplF (opn : List Char) (tpl : List Tpl) : Nat → List Char → List Char
  | 0, s => s
  | _ + 1, [] => []
  | f + 1, c :: t =>
    match matchTok opn (c :: t) with
    | some r =>
      expandTpl ((c :: t).take r.2) r.1 tpl ++ subTplF opn tpl f ((c :: t).drop r.2)
    | none => c :: subTplF opn tpl f t

/-- `re.sub` of a pronoun pattern with a replacement template. -/
def subTpl (opn : List Char) (tpl : List Tpl) (s : List Char) : List Char :=
  subTplF opn tpl s.length s

/-- The faithful embedding of `replace_pronouns` from `utils.py`, including
`re.sub`'s processing of the replacement string `f"{female}/{male}"` as a
template: when both tokens are present, the template is parsed against the
one-group female pattern (`none` when that raises `re.error`), every female
token is replaced by the template expanded at its match site, every male
token is deleted, and the remaining `#` characters are stripped by
`str.replace`; otherwise the text passes through unchanged. -/
def replace_pronouns_full (s : List Char) : Option (List Char) :=
  match searchTok fOpen s, searchTok mOpen s with
  | some a, some b =>
    match parseTemplate 1 (a ++ '/' :: b) with
    | none => none
    | some tpl =>
      some (List.filter (fun c => c != '#') (subAll mLen [] (subTpl fOpen tpl s)))
  | _, _ => some s

/-! Embedding of the icon-URL synthesis and derived variants
(`models/character.py`, `models/light_cone.py`). -/
/-- Icon validator of `Character` / `CharacterDetail`: prefix the avatar asset
path and append the extension. -/
def charIcon (v : List Char) : List Char :=
  "https://sr.yatta.moe/hsr/assets/UI/avatar/".toList ++ v ++ ".png".toList

/-- Icon validator of `LightCone` / `LightConeDetail`. -/
def lightConeIcon (v : List Char) : List Char :=
  "https://sr.yatta.moe/hsr/assets/UI/equipment/".toList ++ v ++ ".png".toList

namespace Character

/-- `Character.medium_icon`: `self.icon.replace("avatar", "avatar/medium")`. -/
def medium_icon (icon : List Char) : List Char :=
  replaceAll "avatar".toList "avatar/medium".toList icon

/-- `Character.large_icon`. -/
def large_icon (icon : List Char) : List Char :=
  replaceAll "avatar".toList "avatar/large".toList icon

/-- `Character.round_icon`. -/
def round_icon (icon : List Char) : List Char :=
  replaceAll "avatar".toList "avatar/round".toList icon

end Character

namespace LightCone

/-- `LightCone.medium_icon`: `self.icon.replace("equipment", "equipment/medium")`. -/
def medium_icon (icon : List Char) : List Char :=
  replaceAll "equipment".toList "equipment/medium".toList icon

/-- `LightCone.large_icon`. -/
def large_icon (icon : List Char) : List Char :=
  replaceAll "equipment".toList "equipment/large".toList icon

end LightCone

/-! Embedding of the map-key round trip (`models/book.py`,
`fetch_changelogs`, `models/relic.py`). -/
/-- Decimal digit test. -/
def isDigitCh (c : Char) : Bool := 48 ≤ c.toNat && c.toNat ≤ 57

/-- Value of a nonempty all-digit string. -/
def digitsToNat : List Char → Option Nat
  | [] => none
  | s =>
    if s.all isDigitCh then some (s.foldl (fun acc c => acc * 10 + (c.toNat - 48)) 0) else none

/-- Python `int(s)` on plain decimal forms (an optional sign followed by
digits); other inputs raise ValueError, modelled as `none`. -/
def pyInt : List Char → Option Int
  | '-' :: rest => (digitsToNat rest).map (fun n => -(n : Int))
  | s => (digitsToNat s).map (fun n => (n : Int))

/-- A record carrying the parsed integer key plus the rest of its payload. -/
structure KeyedRec (α : Type) where
  id : Int
  payload : α
deriving DecidableEq

/-- A relic piece carrying the raw position key plus the rest of its payload. -/
structure PosRec (α : Type) where
  pos : List Char
  payload : α
deriving DecidableEq

/-- `BookDetail.__convert_series`: one record per map entry, in order, with
`id = int(key)` (a bad key raises, modelled as `none`). -/
def convertSeries {α : Type} : List (List Char × α) → Option (List (KeyedRec α))
  | [] => some []
  | (k, p) :: rest =>
    match pyInt k with
    | none => none
    | some n => (convertSeries rest).map (fun l => ⟨n, p⟩ :: l)

/-- The changelog loop of `fetch_changelogs`: `Changelog(id=int(key), **log)`
for each entry of `data["data"]`, in order. -/
def convertChangelogs {α : Type} : List (List Char × α) → Option (List (KeyedRec α))
  | [] => some []
  | (k, p) :: rest =>
    match pyInt k with
    | none => none
    | some n => (convertChangelogs rest).map (fun l => ⟨n, p⟩ :: l)

/-- `RelicSetDetail.__convert_relics`: one `Relic(pos=pos, ...)` per map
entry, keeping the raw key as the `pos` field. -/
def convertRelics {α : Type} : List (List Char × α) → List (PosRec α)
  | [] => []
  | (k, p) :: rest => ⟨k, p⟩ :: convertRelics rest

/-! Embedding of the request pipeline (`client.py`). -/
/-- The domain errors raised by `YattaAPI._handle_error`. -/
inductive ApiError where
  | dataNotFound : ApiError
  | connectionTimeout : ApiError
  | apiError (code : Nat) : ApiError
deriving DecidableEq

/-- `YattaAPI._handle_error`: the fixed status table. -/
def handle_error (code : Nat) : ApiError :=
  if code = 404 then .dataNotFound
  else if code = 522 then .connectionTimeout
  else .apiError code

/-- The response handling of `YattaAPI._request`: any non-200 status raises
through `_handle_error`; a 200 returns the parsed body. -/
def classifyResponse {α : Type} (status : Nat) (body : α) : Except ApiError α :=
  if status = 200 then .ok body else .error (handle_error status)

/-- State of the `version.txt` token file: absent, unparsable, or a stored
token with its write timestamp (seconds). -/
inductive FileState where
  | absent : FileState
  | malformed : FileState
  | stored (v : List Char) (ts : Nat) : FileState

/-- `YattaAPI._get_version`: `none` when the file is absent, malformed, or
written more than 24 hours (86400 seconds) ago. -/
def get_version (now : Nat) : FileState → Option (List Char)
  | .absent => none
  | .malformed => none
  | .stored v ts => if now - ts > 86400 then none else some v

/-- Observable events of one `_request` call: an HTTP fetch (endpoint,
static flag, cache mode, attached version-hash query) or a version save. -/
inductive Ev where
  | fetch (endpoint : List Char) (static useCache : Bool) (vh : Option (List Char)) : Ev
  | save (version : List Char) (ts : Nat) : Ev
deriving DecidableEq

/-- The version endpoint name. -/
def versionEndpoint : List Char := "version".toList

/-- Event trace of `YattaAPI._request`: a request for `version` skips the
gate; any other request first obtains a version token (refreshing and saving
it when `_get_version` returns nothing, via the cache-bypassing
`fetch_latest_version`, itself a static `version` request), then issues the
resource fetch with the `vh` query attached. -/
def request_trace (ep : List Char) (static useCache : Bool) (fs : FileState)
    (now : Nat) (latest : List Char) : List Ev :=
  if ep = versionEndpoint then [.fetch ep static useCache none]
  else
    match get_version now fs with
    | some v => [.fetch ep static useCache (some v)]
    | none =>
      [.fetch versionEndpoint true false none, .save latest now,
       .fetch ep static useCache (some latest)]

/-- `YattaAPI.BASE_URL`. -/
def baseUrl : List Char := "https://sr.yatta.moe/api/v2".toList

/-- The URL string a fetch event requests, as `_request` builds it. -/
def evUrl (lang : List Char) : Ev → List Char
  | .fetch ep st _ vh =>
    (if st then baseUrl ++ "/static/".toList ++ ep else baseUrl ++ ['/'] ++ lang ++ ['/'] ++ ep)
      ++ (match vh with | some v => "?vh=".toList ++ v | none => [])
  | .save _ _ => []

/-- Number of fetch events for a given endpoint in a trace. -/
def countFetchOf (ep : List Char) (tr : List Ev) : Nat :=
  (tr.filter fun e =>
    match e with
    | .fetch e2 _ _ _ => e2 == ep
    | .save _ _ => false).length


/-! Template model for the amended placeholder-substitution claim: a string
is a sequence of literal runs and placeholder tokens. -/

/-- A template piece: a literal run of characters or a placeholder token
with index drawn from `ι` (`Nat` positions or string keys). -/
inductive Piece (ι : Type) where
  | lit (cs : List Char) : Piece ι
  | tok (idx : ι) : Piece ι
deriving DecidableEq

/-- Render a template into the string it denotes, `ph` spelling each token. -/
def render {ι : Type} (ph : ι → List Char) : List (Piece ι) → List Char
  | [] => []
  | .lit cs :: r => cs ++ render ph r
  | .tok k :: r => ph k ++ render ph r

/-- Substituted rendering with an explicit continuation `tail`: a token with
an assigned value becomes the stringified value, multiplied by 100 exactly
when the character just after it is a percent sign; unassigned tokens stay. -/
def substWith {ι : Type} (ph : ι → List Char) (val : ι → Option Int) :
    List (Piece ι) → List Char → List Char
  | [], tail => tail
  | .lit cs :: r, tail => cs ++ substWith ph val r tail
  | .tok k :: r, tail =>
    let rest := substWith ph val r tail
    match val k with
    | none => ph k ++ rest
    | some v => intChars (if rest.head? = some '%' then v * 100 else v) ++ rest

/-- Substituted rendering of a whole template. -/
def substPieces {ι : Type} (ph : ι → List Char) (val : ι → Option Int)
    (T : List (Piece ι)) : List Char :=
  substWith ph val T []

/-- The token indices of a template, in order. -/
def toks {ι : Type} : List (Piece ι) → List ι
  | [] => []
  | .lit _ :: r => toks r
  | .tok k :: r => k :: toks r

/-- Does a piece render to a nonempty string? -/
def pieceNonempty {ι : Type} : Piece ι → Bool
  | .lit cs => !cs.isEmpty
  | .tok _ => true

/-- Every token is followed by at least one more character of text. -/
def followedOk {ι : Type} : List (Piece ι) → Bool
  | [] => true
  | .lit _ :: r => followedOk r
  | .tok _ :: r => r.any pieceNonempty && followedOk r

/-- All literal runs of the template are free of `#`. -/
def litsClean {ι : Type} (T : List (Piece ι)) : Prop :=
  ∀ cs, Piece.lit cs ∈ T → ∀ c ∈ cs, c ≠ '#'

/-- The value a keyed parameter map assigns to a key: the first value of the
first entry with that key. -/
def extendVal (val : List Char → Option Int) (kvs : List (List Char × List Int))
    (k : List Char) : Option Int :=
  match kvs.find? (fun kv => kv.1 == k) with
  | some kv => kv.2.head?
  | none => val k

/-! Lemmas and claim theorems. -/

/-! Basic lemmas about the string primitives. -/
theorem dropPre_eq_append : ∀ pat s r, dropPre pat s = some r → s = pat ++ r := by
  intro pat
  induction pat with
  | nil => intro s r h; simp [dropPre] at h; simp [h]
  | cons p ps ih =>
    intro s r h
    cases s with
    | nil => simp [dropPre] at h
    | cons c t =>
      by_cases hpc : p = c
      · simp [dropPre, hpc] at h
        have := ih t r h
        simp [hpc, this]
      · simp [dropPre, hpc] at h

theorem dropPre_self_append : ∀ pat u, dropPre pat (pat ++ u) = some u := by
  intro pat
  induction pat with
  | nil => intro u; simp [dropPre]
  | cons p ps ih => intro u; simp [dropPre, ih]

theorem dropPre_length : ∀ pat s r, dropPre pat s = some r → r.length = s.length - pat.length := by
  intro pat s r h
  have := dropPre_eq_append pat s r h
  subst this
  simp

theorem isPre_head_ne {pat : List Char} {p c : Char} (hp : pat.head? = some p) (hne : p ≠ c)
    (t : List Char) : isPre pat (c :: t) = false := by
  cases pat with
  | nil => simp at hp
  | cons q qs =>
    simp at hp
    subst hp
    simp [isPre, dropPre, hne]

theorem isPre_iff_dropPre {pat s : List Char} :
    isPre pat s = true ↔ ∃ r, dropPre pat s = some r := by
  simp [isPre, Option.isSome_iff_exists]

theorem isPre_length_le : ∀ pat s : List Char, isPre pat s = true → pat.length ≤ s.length := by
  intro pat s h
  rcases isPre_iff_dropPre.mp h with ⟨r, hr⟩
  have := dropPre_eq_append pat s r hr
  subst this
  simp

theorem containsSub_append_self : ∀ A pat B : List Char, containsSub pat (A ++ pat ++ B) = true := by
  intro A pat B
  induction A with
  | nil =>
    have h1 : isPre pat (pat ++ B) = true := by
      simp [isPre, dropPre_self_append]
    simp only [List.nil_append]
    cases hpb : pat ++ B with
    | nil => rw [hpb] at h1; simp [containsSub, h1]
    | cons c t => rw [hpb] at h1; simp [containsSub, h1]
  | cons a A ih =>
    simp only [List.cons_append, containsSub, Bool.or_eq_true]
    right
    exact ih

theorem isPre_false_dropPre {pat s : List Char} (h : isPre pat s = false) :
    dropPre pat s = none := by
  cases hd : dropPre pat s with
  | none => rfl
  | some r => rw [isPre, hd] at h; simp at h

theorem replaceAllF_fuel (pat rep : List Char) (hpat : pat ≠ []) :
    ∀ f g s, s.length ≤ f → s.length ≤ g →
      replaceAllF pat rep f s = replaceAllF pat rep g s := by
  intro f
  induction f with
  | zero =>
    intro g s hf _
    have : s = [] := List.length_eq_zero.mp (Nat.le_zero.mp hf)
    subst this
    cases g <;> simp [replaceAllF]
  | succ f ih =>
    intro g s hf hg
    cases s with
    | nil => cases g <;> simp [replaceAllF]
    | cons c t =>
      cases g with
      | zero => simp at hg
      | succ g =>
        cases hdp : dropPre pat (c :: t) with
        | none =>
          have ht : t.length ≤ f := by simpa using hf
          have ht' : t.length ≤ g := by simpa using hg
          simp only [replaceAllF, hdp]
          rw [ih g t ht ht']
        | some rest =>
          have hlen : rest.length = (c :: t).length - pat.length :=
            dropPre_length pat _ rest hdp
          have hp1 : 1 ≤ pat.length := by
            cases pat with
            | nil => exact absurd rfl hpat
            | cons _ _ => simp
          have hr : rest.length ≤ t.length := by
            simp only [List.length_cons] at hlen
            omega
          simp only [replaceAllF, hdp]
          rw [ih g rest (le_trans hr (by simpa using hf)) (le_trans hr (by simpa using hg))]

theorem replaceAll_nil (pat rep : List Char) : replaceAll pat rep [] = [] := rfl

theorem replaceAll_cons_miss {pat : List Char} (rep : List Char) {c : Char} {t : List Char}
    (h : dropPre pat (c :: t) = none) :
    replaceAll pat rep (c :: t) = c :: replaceAll pat rep t := by
  simp [replaceAll, replaceAllF, h]

theorem replaceAll_cons_match {pat : List Char} (rep : List Char) {c : Char} {t rest : List Char}
    (hpat : pat ≠ []) (h : dropPre pat (c :: t) = some rest) :
    replaceAll pat rep (c :: t) = rep ++ replaceAll pat rep rest := by
  have hlen : rest.length = (c :: t).length - pat.length := dropPre_length pat _ rest h
  have hp1 : 1 ≤ pat.length := by
    cases pat with
    | nil => exact absurd rfl hpat
    | cons _ _ => simp
  have hr : rest.length ≤ t.length := by
    simp only [List.length_cons] at hlen
    omega
  simp only [replaceAll, List.length_cons, replaceAllF, h]
  rw [replaceAllF_fuel pat rep hpat t.length rest.length rest hr le_rfl]

theorem replaceAll_of_not_contains {pat : List Char} (rep : List Char) :
    ∀ s, containsSub pat s = false → replaceAll pat rep s = s := by
  intro s
  induction s with
  | nil => intro _; rfl
  | cons c t ih =>
    intro h
    simp only [containsSub, Bool.or_eq_false_iff] at h
    have hdp : dropPre pat (c :: t) = none := isPre_false_dropPre h.1
    rw [replaceAll_cons_miss rep hdp, ih h.2]

theorem findSub_isSome (pat : List Char) :
    ∀ s, (findSub pat s).isSome = containsSub pat s := by
  intro s
  induction s with
  | nil =>
    by_cases h : isPre pat [] = true
    · simp [findSub, containsSub, h]
    · simp only [Bool.not_eq_true] at h
      simp [findSub, containsSub, h]
  | cons c t ih =>
    by_cases h : isPre pat (c :: t) = true
    · simp [findSub, containsSub, h]
    · simp only [Bool.not_eq_true] at h
      simp [findSub, containsSub, h, ih]

theorem findSub_decomp (pat : List Char) :
    ∀ s i, findSub pat s = some i → ∃ A r, s = A ++ pat ++ r ∧ A.length = i := by
  intro s
  induction s with
  | nil =>
    intro i h
    by_cases hp : isPre pat [] = true
    · rcases isPre_iff_dropPre.mp hp with ⟨r, hr⟩
      have := dropPre_eq_append pat [] r hr
      simp [findSub, hp] at h
      exact ⟨[], r, by simpa using this, by simp [h]⟩
    · simp only [Bool.not_eq_true] at hp
      simp [findSub, hp] at h
  | cons c t ih =>
    intro i h
    by_cases hp : isPre pat (c :: t) = true
    · rcases isPre_iff_dropPre.mp hp with ⟨r, hr⟩
      have := dropPre_eq_append pat _ r hr
      simp [findSub, hp] at h
      exact ⟨[], r, by simpa using this, by simp [h]⟩
    · simp only [Bool.not_eq_true] at hp
      simp only [findSub, hp, Bool.false_eq_true, if_false, Option.map_eq_some'] at h
      rcases h with ⟨j, hj, hi⟩
      rcases ih j hj with ⟨A, r, hA, hAl⟩
      exact ⟨c :: A, r, by simp [hA], by simp [hAl, hi]⟩

theorem isPre_take_of_append :
    ∀ (a : List Char) (pat u : List Char), isPre pat (a ++ u) = true →
      isPre (pat.take a.length) a = true := by
  intro a
  induction a with
  | nil => intro pat u _; simp [isPre, dropPre]
  | cons c t ih =>
    intro pat u h
    cases pat with
    | nil => simp [isPre, dropPre]
    | cons p ps =>
      simp only [List.cons_append] at h
      by_cases hpc : p = c
      · subst hpc
        have h2 : isPre ps (t ++ u) = true := by
          simpa [isPre, dropPre] using h
        have h3 := ih ps u h2
        have hgoal : isPre ((p :: ps).take (p :: t).length) (p :: t)
            = isPre (ps.take t.length) t := by
          simp [List.take_succ_cons, isPre, dropPre]
        rw [hgoal]
        exact h3
      · simp [isPre, dropPre, hpc] at h

theorem isPre_drop_of_append :
    ∀ (u : List Char) (pat w : List Char), isPre pat (u ++ w) = true →
      u.length < pat.length → isPre (pat.drop u.length) w = true := by
  intro u
  induction u with
  | nil => intro pat w h _; exact h
  | cons c t ih =>
    intro pat w h hlt
    cases pat with
    | nil => simp at hlt
    | cons p ps =>
      simp only [List.cons_append] at h
      by_cases hpc : p = c
      · subst hpc
        simp only [isPre, dropPre, if_pos rfl] at h
        simp only [List.length_cons, List.drop_succ_cons]
        exact ih ps w (by simpa [isPre] using h) (by simpa using hlt)
      · simp [isPre, dropPre, hpc] at h

theorem chunkSafe_not_isPre {pat : List Char} {c : Char} {ch : List Char}
    (h : chunkSafe pat (c :: ch) = true) (u : List Char) :
    isPre pat ((c :: ch) ++ u) = false := by
  simp only [chunkSafe, Bool.and_eq_true, Bool.not_eq_true'] at h
  by_contra hc
  simp only [Bool.not_eq_false] at hc
  have := isPre_take_of_append (c :: ch) pat u hc
  simp only [List.length_cons] at this
  rw [h.1] at this
  exact Bool.false_ne_true this

theorem chunkSafe_contains {pat : List Char} :
    ∀ chunk, chunkSafe pat chunk = true →
      ∀ u, containsSub pat (chunk ++ u) = containsSub pat u := by
  intro chunk
  induction chunk with
  | nil => intro _ u; simp
  | cons c ch ih =>
    intro h u
    have h2 : chunkSafe pat ch = true := by
      simp only [chunkSafe, Bool.and_eq_true] at h
      exact h.2
    have hip : isPre pat (c :: (ch ++ u)) = false := chunkSafe_not_isPre h u
    calc containsSub pat ((c :: ch) ++ u)
        = (isPre pat (c :: (ch ++ u)) || containsSub pat (ch ++ u)) := rfl
      _ = containsSub pat u := by rw [hip, Bool.false_or]; exact ih h2 u

theorem chunkSafe_replaceAll {pat : List Char} (rep : List Char) :
    ∀ chunk, chunkSafe pat chunk = true →
      ∀ u, replaceAll pat rep (chunk ++ u) = chunk ++ replaceAll pat rep u := by
  intro chunk
  induction chunk with
  | nil => intro _ u; simp
  | cons c ch ih =>
    intro h u
    have h2 : chunkSafe pat ch = true := by
      simp only [chunkSafe, Bool.and_eq_true] at h
      exact h.2
    have hip : isPre pat (c :: (ch ++ u)) = false := chunkSafe_not_isPre h u
    have hdp : dropPre pat (c :: (ch ++ u)) = none := isPre_false_dropPre hip
    simp only [List.cons_append]
    rw [replaceAll_cons_miss rep hdp, ih h2 u]

theorem containsSub_append_ruled {pat : List Char} :
    ∀ key png, containsSub pat key = false → containsSub pat png = false →
      straddleFree pat png = true → containsSub pat (key ++ png) = false := by
  intro key
  induction key with
  | nil => intro png _ h2 _; simpa using h2
  | cons c t ih =>
    intro png h1 h2 h3
    simp only [containsSub, Bool.or_eq_false_iff] at h1
    simp only [List.cons_append, containsSub, Bool.or_eq_false_iff]
    refine ⟨?_, by simpa using ih png h1.2 h2 h3⟩
    by_contra hc0
    simp only [Bool.not_eq_false] at hc0
    have hc : isPre pat ((c :: t) ++ png) = true := hc0
    by_cases hlen : pat.length ≤ (c :: t).length
    · have := isPre_take_of_append (c :: t) pat png hc
      rw [List.take_of_length_le hlen] at this
      rw [h1.1] at this
      exact Bool.false_ne_true this
    · push_neg at hlen
      have hdrop := isPre_drop_of_append (c :: t) pat png hc hlen
      have hmem : (c :: t).length ∈ List.range pat.length := List.mem_range.mpr hlen
      have := (List.all_eq_true.mp h3) _ hmem
      simp only [List.length_cons, Bool.or_eq_true, beq_iff_eq, Bool.not_eq_true'] at this
      rcases this with h0 | hfalse
      · omega
      · simp only [List.length_cons] at hdrop
        rw [hfalse] at hdrop
        exact Bool.false_ne_true hdrop

/-! Character-class facts about decimal renderings. -/
theorem digit_facts : ∀ k < 10, digitChar k ≠ '#' ∧ digitChar k ≠ '%' ∧ digitChar k ≠ ']'
    ∧ digitChar k ≠ lbrace ∧ digitChar k ≠ rbrace ∧ digitChar k ≠ '[' ∧ digitChar k ≠ '-'
    ∧ digitChar k ≠ 'i' ∧ digitChar k ≠ '<' ∧ digitChar k ≠ '/' := by decide

theorem natCharsF_mem : ∀ f n c, c ∈ natCharsF f n → ∃ k, k < 10 ∧ c = digitChar k := by
  intro f
  induction f with
  | zero => intro n c h; simp [natCharsF] at h
  | succ f ih =>
    intro n c h
    by_cases hn : n < 10
    · simp [natCharsF, hn] at h
      exact ⟨n, hn, h⟩
    · simp only [natCharsF, if_neg hn, List.mem_append, List.mem_singleton] at h
      rcases h with h | h
      · exact ih _ c h
      · exact ⟨n % 10, Nat.mod_lt _ (by omega), h⟩

theorem natChars_mem (n : Nat) (c : Char) (h : c ∈ natChars n) :
    ∃ k, k < 10 ∧ c = digitChar k := natCharsF_mem _ n c h

theorem intChars_mem : ∀ v c, c ∈ intChars v → c = '-' ∨ ∃ k, k < 10 ∧ c = digitChar k := by
  intro v c h
  cases v with
  | ofNat n => exact Or.inr (natChars_mem n c h)
  | negSucc n =>
    simp only [intChars, List.mem_cons] at h
    rcases h with h | h
    · exact Or.inl h
    · exact Or.inr (natChars_mem _ c h)

theorem intChars_no_hash (v : Int) : ∀ c ∈ intChars v, c ≠ '#' := by
  intro c hc
  rcases intChars_mem v c hc with h | ⟨k, hk, h⟩
  · subst h; decide
  · subst h; exact (digit_facts k hk).1

theorem natCharsF_ne_nil : ∀ f n, 0 < f → natCharsF f n ≠ [] := by
  intro f n hf
  cases f with
  | zero => omega
  | succ f =>
    by_cases hn : n < 10
    · simp [natCharsF, hn]
    · simp only [natCharsF, if_neg hn]
      intro h
      rcases List.append_eq_nil.mp h with ⟨_, h2⟩
      simp at h2

theorem natChars_ne_nil (n : Nat) : natChars n ≠ [] := natCharsF_ne_nil _ n (by omega)

theorem intChars_ne_nil (v : Int) : intChars v ≠ [] := by
  cases v with
  | ofNat n => exact natChars_ne_nil n
  | negSucc n => simp [intChars]

theorem intChars_head_ne (v : Int) (c : Char) (h : (intChars v).head? = some c) :
    c ≠ '%' ∧ c ≠ '#' := by
  have hm : c ∈ intChars v := List.mem_of_mem_head? h
  rcases intChars_mem v c hm with h1 | ⟨k, hk, h1⟩
  · subst h1; exact ⟨by decide, by decide⟩
  · subst h1; exact ⟨(digit_facts k hk).2.1, (digit_facts k hk).1⟩

theorem natCharsF_getLast : ∀ f n c, (natCharsF f n).getLast? = some c →
    ∃ k, k < 10 ∧ c = digitChar k := by
  intro f
  induction f with
  | zero => intro n c h; simp [natCharsF] at h
  | succ f ih =>
    intro n c h
    by_cases hn : n < 10
    · simp [natCharsF, hn] at h
      exact ⟨n, hn, h.symm⟩
    · simp only [natCharsF, if_neg hn] at h
      rw [List.getLast?_concat] at h
      exact ⟨n % 10, Nat.mod_lt _ (by omega), by simpa using h.symm⟩

theorem intChars_getLast_ne (v : Int) (c : Char) (h : (intChars v).getLast? = some c) :
    c ≠ ']' := by
  cases v with
  | ofNat n =>
    rcases natCharsF_getLast _ n c h with ⟨k, hk, hc⟩
    subst hc
    exact (digit_facts k hk).2.2.1
  | negSucc n =>
    simp only [intChars] at h
    rw [show ('-' :: natChars (n + 1)) = ['-'] ++ natChars (n + 1) from rfl,
      List.getLast?_append_of_ne_nil ['-'] (natChars_ne_nil (n + 1))] at h
    rcases natCharsF_getLast _ _ c h with ⟨k, hk, hc⟩
    subst hc
    exact (digit_facts k hk).2.2.1

/-! Lemmas about the generic `re.sub` worker. -/
theorem subAllF_fuel (m : List Char → Option Nat) (repl : List Char)
    (hm : ∀ u n, m u = some n → 1 ≤ n) :
    ∀ f g s, s.length ≤ f → s.length ≤ g → subAllF m repl f s = subAllF m repl g s := by
  intro f
  induction f with
  | zero =>
    intro g s hf _
    have : s = [] := List.length_eq_zero.mp (Nat.le_zero.mp hf)
    subst this
    cases g <;> simp [subAllF]
  | succ f ih =>
    intro g s hf hg
    cases s with
    | nil => cases g <;> simp [subAllF]
    | cons c t =>
      cases g with
      | zero => simp at hg
      | succ g =>
        cases hdp : m (c :: t) with
        | none =>
          have ht : t.length ≤ f := by simpa using hf
          have ht' : t.length ≤ g := by simpa using hg
          simp only [subAllF, hdp]
          rw [ih g t ht ht']
        | some n =>
          have hn : 1 ≤ n := hm _ n hdp
          have hr : ((c :: t).drop n).length ≤ t.length := by
            simp only [List.length_drop, List.length_cons]
            omega
          simp only [subAllF, hdp]
          rw [ih g _ (le_trans hr (by simpa using hf)) (le_trans hr (by simpa using hg))]

theorem subAll_nil (m : List Char → Option Nat) (repl : List Char) : subAll m repl [] = [] := rfl

theorem subAll_cons_miss {m : List Char → Option Nat} (repl : List Char) {c : Char}
    {t : List Char} (h : m (c :: t) = none) :
    subAll m repl (c :: t) = c :: subAll m repl t := by
  simp [subAll, subAllF, h]

theorem subAll_cons_match {m : List Char → Option Nat} (repl : List Char) {c : Char}
    {t : List Char} {n : Nat} (hm : ∀ u k, m u = some k → 1 ≤ k) (h : m (c :: t) = some n) :
    subAll m repl (c :: t) = repl ++ subAll m repl ((c :: t).drop n) := by
  have hn : 1 ≤ n := hm _ n h
  have hr : ((c :: t).drop n).length ≤ t.length := by
    simp only [List.length_drop, List.length_cons]
    omega
  simp only [subAll, List.length_cons, subAllF, h]
  rw [subAllF_fuel m repl hm t.length ((c :: t).drop n).length _ hr le_rfl]

theorem subAll_of_no_match {m : List Char → Option Nat} (repl : List Char) :
    ∀ s, anyMatch m s = false → subAll m repl s = s := by
  intro s
  induction s with
  | nil => intro _; rfl
  | cons c t ih =>
    intro h
    simp only [anyMatch, Bool.or_eq_false_iff] at h
    have hnone : m (c :: t) = none := by
      have := h.1
      cases hm : m (c :: t) with
      | none => rfl
      | some k => rw [hm] at this; simp at this
    rw [subAll_cons_miss repl hnone, ih h.2]

/-- C5: for every endpoint and both cache modes, the request pipeline
classifies the HTTP status by a fixed table — 200 returns the parsed body,
404 raises DataNotFoundError, 522 raises ConnectionTimeoutError, any other
non-200 status raises YattaAPIError carrying the raw code — and the
requested endpoint is fetched exactly once (no retry). -/
theorem c5_theorem :
    (∀ body : Nat, classifyResponse 200 body = .ok body)
    ∧ (∀ (status : Nat) (body : Nat), status ≠ 200 →
        classifyResponse status body = .error (handle_error status))
    ∧ handle_error 404 = .dataNotFound
    ∧ handle_error 522 = .connectionTimeout
    ∧ (∀ code, code ≠ 404 → code ≠ 522 → handle_error code = .apiError code)
    ∧ (∀ (ep : List Char) (st uc : Bool) (fs : FileState) (now : Nat) (latest : List Char),
        countFetchOf ep (request_trace ep st uc fs now latest) = 1) := by
  refine ⟨?_, ?_, ?_, ?_, ?_, ?_⟩
  · intro body; simp [classifyResponse]
  · intro status body h; simp [classifyResponse, h]
  · simp [handle_error]
  · simp [handle_error]
  · intro code h4 h5; simp [handle_error, h4, h5]
  · intro ep st uc fs now latest
    by_cases hep : ep = versionEndpoint
    · simp [request_trace, hep, countFetchOf]
    · cases hv : get_version now fs with
      | some v => simp [request_trace, hep, hv, countFetchOf]
      | none =>
        have hne : (versionEndpoint == ep) = false := by
          simp only [beq_eq_false_iff_ne, ne_eq]
          intro hcon
          exact hep hcon.symm
        simp [request_trace, hep, hv, countFetchOf, hne]

/-- Witness for C5 at concrete inputs: status 200 succeeds, status 503 maps
to YattaAPIError 503, and a cache-hit avatar request fetches once. -/
theorem c5_witness :
    classifyResponse 200 (7 : Nat) = .ok 7
    ∧ classifyResponse 503 (0 : Nat) = .error (.apiError 503)
    ∧ countFetchOf "avatar".toList
        (request_trace "avatar".toList false true .absent 1000 "v1".toList) = 1 := by
  refine ⟨c5_theorem.1 7, ?_, c5_theorem.2.2.2.2.2 "avatar".toList false true .absent 1000 "v1".toList⟩
  rw [c5_theorem.2.1 503 0 (by decide), c5_theorem.2.2.2.2.1 503 (by decide) (by decide)]

/-- C6: for every request to an endpoint other than `version`, a missing,
malformed or more-than-24-hour-old version file triggers exactly one
cache-bypassing fetch of the latest version, persisted with a timestamp
before the resource fetch is issued; the resource fetch always carries the
`?vh=` query, a fresh stored token is used directly, and a `version` request
itself never carries the query. -/
theorem c6_theorem :
    ∀ (ep : List Char) (st uc : Bool) (fs : FileState) (now : Nat) (latest lang : List Char),
      ep ≠ versionEndpoint →
      (get_version now fs = none →
        request_trace ep st uc fs now latest =
          [.fetch versionEndpoint true false none, .save latest now,
           .fetch ep st uc (some latest)])
      ∧ (∀ v, get_version now fs = some v →
          request_trace ep st uc fs now latest = [.fetch ep st uc (some v)])
      ∧ get_version now .absent = none
      ∧ get_version now .malformed = none
      ∧ (∀ v ts, now - ts > 86400 → get_version now (.stored v ts) = none)
      ∧ (∀ v ts, ¬(now - ts > 86400) → get_version now (.stored v ts) = some v)
      ∧ (∀ st2 uc2, request_trace versionEndpoint st2 uc2 fs now latest =
          [.fetch versionEndpoint st2 uc2 none])
      ∧ (∀ v, evUrl lang (.fetch ep false uc (some v)) =
          baseUrl ++ ['/'] ++ lang ++ ['/'] ++ ep ++ ("?vh=".toList ++ v)) := by
  intro ep st uc fs now latest lang hep
  refine ⟨?_, ?_, rfl, rfl, ?_, ?_, ?_, ?_⟩
  · intro hv; simp [request_trace, hep, hv]
  · intro v hv; simp [request_trace, hep, hv]
  · intro v ts h; simp [get_version, h]
  · intro v ts h; simp [get_version, h]
  · intro st2 uc2; simp [request_trace]
  · intro v; simp [evUrl]

/-- Witness for C6 at concrete inputs: a stale token file (written at time 0,
now 90000) makes an avatar request refresh, save, then fetch with the new
token; a fresh file is used directly. -/
theorem c6_witness :
    request_trace "avatar".toList false true (.stored "v0".toList 0) 90000 "v1".toList =
      [.fetch versionEndpoint true false none, .save "v1".toList 90000,
       .fetch "avatar".toList false true (some "v1".toList)]
    ∧ request_trace "avatar".toList false true (.stored "v0".toList 89000) 90000 "v1".toList =
      [.fetch "avatar".toList false true (some "v0".toList)] := by
  constructor
  · exact (c6_theorem ("avatar".toList) false true (.stored "v0".toList 0) 90000
      ("v1".toList) ("en".toList) (by decide)).1 (by decide)
  · exact ((c6_theorem ("avatar".toList) false true (.stored "v0".toList 89000) 90000
      ("v1".toList) ("en".toList) (by decide)).2.1) "v0".toList (by decide)

theorem replaceAll_self_append {pat : List Char} (rep : List Char) (hpat : pat ≠ [])
    (u : List Char) : replaceAll pat rep (pat ++ u) = rep ++ replaceAll pat rep u := by
  cases pat with
  | nil => exact absurd rfl hpat
  | cons p ps =>
    have hdp : dropPre (p :: ps) (p :: (ps ++ u)) = some u := dropPre_self_append _ u
    exact replaceAll_cons_match rep hpat hdp

theorem icon_replace_general (pat rep A k png : List Char) (hpat : pat ≠ [])
    (hA : chunkSafe pat A = true) (hsl : chunkSafe pat ['/'] = true)
    (hk : containsSub pat k = false) (hpng : containsSub pat png = false)
    (hstrad : straddleFree pat png = true) :
    replaceAll pat rep ((A ++ pat ++ ['/']) ++ k ++ png)
      = (A ++ rep ++ ['/']) ++ k ++ png := by
  have hnc : containsSub pat (k ++ png) = false := containsSub_append_ruled k png hk hpng hstrad
  calc replaceAll pat rep ((A ++ pat ++ ['/']) ++ k ++ png)
      = replaceAll pat rep (A ++ (pat ++ (['/'] ++ (k ++ png)))) := by
        simp [List.append_assoc]
    _ = A ++ replaceAll pat rep (pat ++ (['/'] ++ (k ++ png))) :=
        chunkSafe_replaceAll rep A hA _
    _ = A ++ (rep ++ replaceAll pat rep (['/'] ++ (k ++ png))) := by
        rw [replaceAll_self_append rep hpat]
    _ = A ++ (rep ++ (['/'] ++ replaceAll pat rep (k ++ png))) := by
        rw [chunkSafe_replaceAll rep ['/'] hsl]
    _ = A ++ (rep ++ (['/'] ++ (k ++ png))) := by
        rw [replaceAll_of_not_contains rep _ hnc]
    _ = (A ++ rep ++ ['/']) ++ k ++ png := by simp [List.append_assoc]

/-- Counterexample to C7: for the raw key `avatar` (which contains the path
segment name), `medium_icon` rewrites the key portion too, so the derived
URL is not the base URL with only the path segment replaced. -/
theorem c7_counterexample :
    Character.medium_icon (charIcon "avatar".toList) =
      "https://sr.yatta.moe/hsr/assets/UI/avatar/medium/avatar/medium.png".toList
    ∧ Character.medium_icon (charIcon "avatar".toList) ≠
      "https://sr.yatta.moe/hsr/assets/UI/avatar/medium/avatar.png".toList := by
  decide

/-- C7 (amended): the derived medium/large/round character icon URLs and
medium/large light-cone icon URLs equal the base URL with only the path
segment replaced, leaving the key unchanged, for every raw key that does not
itself contain the replaced segment name (`avatar`, resp. `equipment`);
a key containing that substring is rewritten inside the key as well. -/
theorem c7_theorem :
    (∀ k, containsSub "avatar".toList k = false →
      Character.medium_icon (charIcon k) =
        ("https://sr.yatta.moe/hsr/assets/UI/avatar/medium/".toList) ++ k ++ ".png".toList
      ∧ Character.large_icon (charIcon k) =
        ("https://sr.yatta.moe/hsr/assets/UI/avatar/large/".toList) ++ k ++ ".png".toList
      ∧ Character.round_icon (charIcon k) =
        ("https://sr.yatta.moe/hsr/assets/UI/avatar/round/".toList) ++ k ++ ".png".toList)
    ∧ (∀ k, containsSub "equipment".toList k = false →
      LightCone.medium_icon (lightConeIcon k) =
        ("https://sr.yatta.moe/hsr/assets/UI/equipment/medium/".toList) ++ k ++ ".png".toList
      ∧ LightCone.large_icon (lightConeIcon k) =
        ("https://sr.yatta.moe/hsr/assets/UI/equipment/large/".toList) ++ k ++ ".png".toList) := by
  constructor
  · intro k hk
    have hbase : charIcon k =
        (("https://sr.yatta.moe/hsr/assets/UI/".toList ++ "avatar".toList ++ ['/']) ++ k
          ++ ".png".toList) := by
      unfold charIcon
      rw [show "https://sr.yatta.moe/hsr/assets/UI/avatar/".toList =
        "https://sr.yatta.moe/hsr/assets/UI/".toList ++ "avatar".toList ++ ['/'] from by decide]
    refine ⟨?_, ?_, ?_⟩
    · unfold Character.medium_icon
      rw [hbase, icon_replace_general _ _ _ _ _ (by decide) (by decide) (by decide) hk
        (by decide) (by decide)]
      rw [show "https://sr.yatta.moe/hsr/assets/UI/".toList ++ "avatar/medium".toList ++ ['/'] =
        "https://sr.yatta.moe/hsr/assets/UI/avatar/medium/".toList from by decide]
    · unfold Character.large_icon
      rw [hbase, icon_replace_general _ _ _ _ _ (by decide) (by decide) (by decide) hk
        (by decide) (by decide)]
      rw [show "https://sr.yatta.moe/hsr/assets/UI/".toList ++ "avatar/large".toList ++ ['/'] =
        "https://sr.yatta.moe/hsr/assets/UI/avatar/large/".toList from by decide]
    · unfold Character.round_icon
      rw [hbase, icon_replace_general _ _ _ _ _ (by decide) (by decide) (by decide) hk
        (by decide) (by decide)]
      rw [show "https://sr.yatta.moe/hsr/assets/UI/".toList ++ "avatar/round".toList ++ ['/'] =
        "https://sr.yatta.moe/hsr/assets/UI/avatar/round/".toList from by decide]
  · intro k hk
    have hbase : lightConeIcon k =
        (("https://sr.yatta.moe/hsr/assets/UI/".toList ++ "equipment".toList ++ ['/']) ++ k
          ++ ".png".toList) := by
      unfold lightConeIcon
      rw [show "https://sr.yatta.moe/hsr/assets/UI/equipment/".toList =
        "https://sr.yatta.moe/hsr/assets/UI/".toList ++ "equipment".toList ++ ['/'] from by decide]
    constructor
    · unfold LightCone.medium_icon
      rw [hbase, icon_replace_general _ _ _ _ _ (by decide) (by decide) (by decide) hk
        (by decide) (by decide)]
      rw [show "https://sr.yatta.moe/hsr/assets/UI/".toList ++ "equipment/medium".toList ++ ['/'] =
        "https://sr.yatta.moe/hsr/assets/UI/equipment/medium/".toList from by decide]
    · unfold LightCone.large_icon
      rw [hbase, icon_replace_general _ _ _ _ _ (by decide) (by decide) (by decide) hk
        (by decide) (by decide)]
      rw [show "https://sr.yatta.moe/hsr/assets/UI/".toList ++ "equipment/large".toList ++ ['/'] =
        "https://sr.yatta.moe/hsr/assets/UI/equipment/large/".toList from by decide]

/-- Witness for C7 at concrete keys free of the segment names. -/
theorem c7_witness :
    Character.medium_icon (charIcon "1001".toList) =
      ("https://sr.yatta.moe/hsr/assets/UI/avatar/medium/".toList) ++ "1001".toList
        ++ ".png".toList
    ∧ LightCone.large_icon (lightConeIcon "23000".toList) =
      ("https://sr.yatta.moe/hsr/assets/UI/equipment/large/".toList) ++ "23000".toList
        ++ ".png".toList :=
  ⟨(c7_theorem.1 "1001".toList (by decide)).1,
   (c7_theorem.2 "23000".toList (by decide)).2⟩

/-- C8: every map-keyed collection normalization exposes the collection as a
sequence of records, one per entry in order, carrying the parsed integer key
as `id` (book series, changelog entries) or the raw key as the semantically
named `pos` field (relic pieces). -/
theorem c8_theorem :
    (∀ (α : Type) (kvs : List (List Char × α)), (∀ kv ∈ kvs, (pyInt kv.1).isSome = true) →
      convertSeries kvs = some (kvs.map fun kv => ⟨(pyInt kv.1).getD 0, kv.2⟩))
    ∧ (∀ (α : Type) (kvs : List (List Char × α)), (∀ kv ∈ kvs, (pyInt kv.1).isSome = true) →
      convertChangelogs kvs = some (kvs.map fun kv => ⟨(pyInt kv.1).getD 0, kv.2⟩))
    ∧ (∀ (α : Type) (kvs : List (List Char × α)),
      convertRelics kvs = kvs.map fun kv => ⟨kv.1, kv.2⟩) := by
  refine ⟨?_, ?_, ?_⟩
  · intro α kvs h
    induction kvs with
    | nil => rfl
    | cons kv rest ih =>
      obtain ⟨k, p⟩ := kv
      have hk := h (k, p) (List.mem_cons_self _ _)
      rcases Option.isSome_iff_exists.mp hk with ⟨n, hn⟩
      have hrest := ih fun kv2 hm => h kv2 (List.mem_cons_of_mem _ hm)
      simp [convertSeries, hn, hrest]
  · intro α kvs h
    induction kvs with
    | nil => rfl
    | cons kv rest ih =>
      obtain ⟨k, p⟩ := kv
      have hk := h (k, p) (List.mem_cons_self _ _)
      rcases Option.isSome_iff_exists.mp hk with ⟨n, hn⟩
      have hrest := ih fun kv2 hm => h kv2 (List.mem_cons_of_mem _ hm)
      simp [convertChangelogs, hn, hrest]
  · intro α kvs
    induction kvs with
    | nil => rfl
    | cons kv rest ih =>
      obtain ⟨k, p⟩ := kv
      simp [convertRelics, ih]

/-- Witness for C8 at concrete string-keyed maps. -/
theorem c8_witness :
    convertSeries [("12".toList, (5 : Nat)), ("007".toList, 9)] =
      some [⟨12, 5⟩, ⟨7, 9⟩]
    ∧ convertChangelogs [("31".toList, (1 : Nat))] = some [⟨31, 1⟩]
    ∧ convertRelics [("HEAD".toList, (0 : Nat))] = [⟨"HEAD".toList, 0⟩] := by
  refine ⟨?_, ?_, ?_⟩
  · rw [c8_theorem.1 Nat [("12".toList, (5 : Nat)), ("007".toList, 9)] (by decide)]
    decide
  · rw [c8_theorem.2.1 Nat [("31".toList, (1 : Nat))] (by decide)]
    decide
  · rw [c8_theorem.2.2 Nat [("HEAD".toList, (0 : Nat))]]
    decide

/-- Counterexample to C3: the scenario eidolon description does not normalize
to the claimed string — the `#i[1]` token stands at the very end of the raw
description, so `find_next_letter` indexes one past the end of the string and
construction fails (Python IndexError, modelled as `none`). -/
theorem c3_counterexample :
    eidolon_description "Damage #i[0]% increased by #i[1]".toList (.posP [10, 20])
      ≠ some "Damage 1000 increased by 20".toList
    ∧ eidolon_description "Damage #i[0]% increased by #i[1]".toList (.posP [10, 20]) = none := by
  decide

/-- C3 (amended): constructing the eidolon for the raw description
`Damage #i[0]% increased by #i[1]` with params `[10, 20]` raises an index
error (no record is produced) because the index-1 token ends the string;
with any character after that token (for example a trailing period) the
description becomes `Damage 1000% increased by 20.`: the index-0 value is
multiplied by 100 and the `%` sign is kept, the index-1 value is
substituted unchanged. -/
theorem c3_theorem :
    eidolon_description "Damage #i[0]% increased by #i[1]".toList (.posP [10, 20]) = none
    ∧ eidolon_description "Damage #i[0]% increased by #i[1].".toList (.posP [10, 20])
      = some "Damage 1000% increased by 20.".toList := by
  decide

/-- Counterexample to C1: with two occurrences of `#i[0]`, the first not
followed by `%` and the second followed by `%`, the code decides the
multiplication once — from the character after the first occurrence — and
replaces both occurrences with the unmultiplied value, instead of the
claimed per-token treatment. -/
theorem c1_counterexample :
    replace_placeholders "#i[0] #i[0]%".toList (.posP [2]) ≠ some "2 200%".toList
    ∧ replace_placeholders "#i[0] #i[0]%".toList (.posP [2]) = some "2 2%".toList := by
  decide

/-- Counterexample to C2: a referenced placeholder token occurring as the
final characters of the string makes `find_next_letter` index one past the
end, so `replace_placeholders` fails (Python IndexError) instead of being
total. -/
theorem c2_counterexample :
    replace_placeholders "#i[0]".toList (.posP [5]) = none := by decide

theorem replace_pronouns_skip {s : List Char}
    (h : searchTok fOpen s = none ∨ searchTok mOpen s = none) :
    replace_pronouns s = s := by
  unfold replace_pronouns
  rcases h with h | h
  · rw [h]
  · cases hf : searchTok fOpen s with
    | none => rfl
    | some a => rw [h]

theorem parseTemplateF_nobs (g : Nat) :
    ∀ t : List Char, (∀ c ∈ t, c ≠ '\\') → ∀ f, t.length < f →
      parseTemplateF g f t = some (t.map Tpl.lit) := by
  intro t
  induction t with
  | nil =>
    intro _ f hf
    cases f with
    | zero => omega
    | succ f => rfl
  | cons c rest ih =>
    intro h f hf
    have hc : c ≠ '\\' := h c (List.mem_cons_self _ _)
    cases f with
    | zero => omega
    | succ f =>
      simp only [parseTemplateF, if_neg hc]
      rw [ih (fun x hx => h x (List.mem_cons_of_mem _ hx)) f (by
        simp only [List.length_cons] at hf
        omega)]
      rfl

theorem parseTemplate_nobs (g : Nat) (t : List Char) (h : ∀ c ∈ t, c ≠ '\\') :
    parseTemplate g t = some (t.map Tpl.lit) :=
  parseTemplateF_nobs g t h (t.length + 1) (by omega)

theorem expandTpl_lit (g0 g1 : List Char) :
    ∀ t : List Char, expandTpl g0 g1 (t.map Tpl.lit) = t := by
  intro t
  induction t with
  | nil => rfl
  | cons c rest ih => simp only [List.map_cons, expandTpl, ih]

theorem subTplF_lit (opn rep : List Char) :
    ∀ (f : Nat) (s : List Char),
      subTplF opn (rep.map Tpl.lit) f s
        = subAllF (fun u => (matchTok opn u).map (fun r => r.2)) rep f s := by
  intro f
  induction f with
  | zero => intro s; rfl
  | succ f ih =>
    intro s
    cases s with
    | nil => rfl
    | cons c t =>
      simp only [subTplF, subAllF]
      cases hm : matchTok opn (c :: t) with
      | none => simp only [hm, Option.map_none', ih]
      | some r => simp only [hm, Option.map_some', expandTpl_lit, ih]

theorem subTpl_lit (rep s : List Char) :
    subTpl fOpen (rep.map Tpl.lit) s = subAll fLen rep s := by
  show subTplF fOpen (rep.map Tpl.lit) s.length s = subAllF fLen rep s.length s
  rw [subTplF_lit]
  rfl

theorem replace_pronouns_full_eq (s a b : List Char)
    (hf : searchTok fOpen s = some a) (hm : searchTok mOpen s = some b)
    (ha : ∀ c ∈ a, c ≠ '\\') (hb : ∀ c ∈ b, c ≠ '\\') :
    replace_pronouns_full s = some (replace_pronouns s) := by
  have hrepl : ∀ c ∈ a ++ '/' :: b, c ≠ '\\' := by
    intro c hc
    rcases List.mem_append.mp hc with h | h
    · exact ha c h
    · rcases List.mem_cons.mp h with h | h
      · subst h; decide
      · exact hb c h
  simp only [replace_pronouns_full, replace_pronouns, hf, hm,
    parseTemplate_nobs 1 _ hrepl, subTpl_lit]

theorem replace_pronouns_full_skip {s : List Char}
    (h : searchTok fOpen s = none ∨ searchTok mOpen s = none) :
    replace_pronouns_full s = some s := by
  unfold replace_pronouns_full
  rcases h with h | h
  · rw [h]
  · cases hf : searchTok fOpen s with
    | none => rfl
    | some a => rw [h]

/-- C9: re-running the normalizer on already-normalized text — no `<...>`
tag or sprite-preset token matches anywhere, no literal backslash-n, not
both pronoun tokens, no `{RUBY_E#}` and no `{RUBY_B...}` match — returns
the text unchanged. -/
theorem c9_theorem (s : List Char)
    (h1 : anyMatch matchClean s = false)
    (h2 : containsSub bsn s = false)
    (h3 : searchTok fOpen s = none ∨ searchTok mOpen s = none)
    (h4 : containsSub rubyE s = false)
    (h5 : anyMatch matchRubyB s = false) :
    format_str s = s := by
  unfold format_str remove_ruby_tags
  rw [subAll_of_no_match _ s h1, replaceAll_of_not_contains _ s h2,
    replace_pronouns_skip h3, replaceAll_of_not_contains _ s h4,
    subAll_of_no_match _ s h5]

/-- Witness for C9 on a concrete already-normalized string. -/
theorem c9_witness :
    format_str "Deals 50% damage.\nSpeed +10".toList = "Deals 50% damage.\nSpeed +10".toList :=
  c9_theorem _ (by decide) (by decide) (Or.inl (by decide)) (by decide) (by decide)

theorem scanStop_append (a rest : List Char) (ha : ∀ c ∈ a, c ≠ rbrace ∧ c ≠ '\n') :
    scanStop (a ++ rbrace :: rest) = some a.length := by
  induction a with
  | nil => simp [scanStop]
  | cons c t ih =>
    have hc := ha c (List.mem_cons_self _ _)
    have ih2 := ih fun x hx => ha x (List.mem_cons_of_mem _ hx)
    simp [scanStop, hc.1, hc.2, ih2]

theorem matchTok_self (opn a rest : List Char) (ha : ∀ c ∈ a, c ≠ rbrace ∧ c ≠ '\n') :
    matchTok opn (opn ++ (a ++ rbrace :: rest)) = some (a, opn.length + a.length + 1) := by
  simp only [matchTok, dropPre_self_append, scanStop_append a rest ha]
  rw [show List.take a.length (a ++ rbrace :: rest) = a from List.take_left _ _]

theorem matchTok_pos (opn s : List Char) (r : List Char × Nat) (h : matchTok opn s = some r) :
    1 ≤ r.2 := by
  cases hd : dropPre opn s with
  | none => simp [matchTok, hd] at h
  | some rest =>
    cases hs : scanStop rest with
    | none => simp [matchTok, hd, hs] at h
    | some i =>
      simp only [matchTok, hd, hs, Option.some_inj] at h
      subst h
      simp

theorem fLen_pos : ∀ u k, fLen u = some k → 1 ≤ k := by
  intro u k h
  simp only [fLen, Option.map_eq_some'] at h
  rcases h with ⟨r, hr, hk⟩
  subst hk
  exact matchTok_pos _ _ _ hr

theorem mLen_pos : ∀ u k, mLen u = some k → 1 ≤ k := by
  intro u k h
  simp only [mLen, Option.map_eq_some'] at h
  rcases h with ⟨r, hr, hk⟩
  subst hk
  exact matchTok_pos _ _ _ hr

theorem matchTok_cons_ne (os : List Char) {c : Char} (hc : c ≠ lbrace) (t : List Char) :
    matchTok (lbrace :: os) (c :: t) = none := by
  have hd : dropPre (lbrace :: os) (c :: t) = none := by
    show (if lbrace = c then dropPre os t else none) = none
    rw [if_neg fun h => hc h.symm]
  simp [matchTok, hd]

theorem searchTok_cons (opn : List Char) (c : Char) (t : List Char) :
    searchTok opn (c :: t) =
      match matchTok opn (c :: t) with
      | some r => some r.1
      | none => searchTok opn t := rfl

theorem searchTok_chunk (os : List Char) :
    ∀ chunk u, (∀ c ∈ chunk, c ≠ lbrace) →
      searchTok (lbrace :: os) (chunk ++ u) = searchTok (lbrace :: os) u := by
  intro chunk
  induction chunk with
  | nil => intro u _; rfl
  | cons c t ih =>
    intro u h
    have hc := h c (List.mem_cons_self _ _)
    rw [List.cons_append, searchTok_cons, matchTok_cons_ne os hc]
    exact ih u fun x hx => h x (List.mem_cons_of_mem _ hx)

theorem searchTok_at (os a rest : List Char) (ha : ∀ c ∈ a, c ≠ rbrace ∧ c ≠ '\n') :
    searchTok (lbrace :: os) ((lbrace :: os) ++ (a ++ rbrace :: rest)) = some a := by
  have hm := matchTok_self (lbrace :: os) a rest ha
  rw [List.cons_append, searchTok_cons]
  rw [show matchTok (lbrace :: os) (lbrace :: (os ++ (a ++ rbrace :: rest)))
      = some (a, (lbrace :: os).length + a.length + 1) from hm]

theorem subAll_chunk {m : List Char → Option Nat} (repl : List Char) :
    ∀ chunk u, (∀ c ∈ chunk, ∀ t, m (c :: t) = none) →
      subAll m repl (chunk ++ u) = chunk ++ subAll m repl u := by
  intro chunk
  induction chunk with
  | nil => intro u _; rfl
  | cons c t ih =>
    intro u h
    have hc := h c (List.mem_cons_self _ _) (t ++ u)
    rw [List.cons_append, subAll_cons_miss repl hc,
      ih u fun x hx => h x (List.mem_cons_of_mem _ hx)]
    rfl

theorem subAll_clean {m : List Char → Option Nat} (repl : List Char) :
    ∀ w, (∀ c ∈ w, ∀ t, m (c :: t) = none) → subAll m repl w = w := by
  intro w
  induction w with
  | nil => intro _; rfl
  | cons c t ih =>
    intro h
    rw [subAll_cons_miss repl (h c (List.mem_cons_self _ _) t),
      ih fun x hx => h x (List.mem_cons_of_mem _ hx)]

theorem subAll_tok {m : List Char → Option Nat} (repl : List Char)
    (hm : ∀ u k, m u = some k → 1 ≤ k) (tokfull rest : List Char) (hne : tokfull ≠ [])
    (hmm : m (tokfull ++ rest) = some tokfull.length) :
    subAll m repl (tokfull ++ rest) = repl ++ subAll m repl rest := by
  cases tokfull with
  | nil => exact absurd rfl hne
  | cons c y =>
    rw [List.cons_append, subAll_cons_match repl hm (by simpa using hmm)]
    congr 1
    rw [show List.drop (y.length + 1) (c :: (y ++ rest)) = List.drop y.length (y ++ rest)
      from rfl]
    rw [show List.drop y.length (y ++ rest) = rest from List.drop_left _ _]

theorem fLen_cons_ne {c : Char} (hc : c ≠ lbrace) (t : List Char) : fLen (c :: t) = none := by
  simp only [fLen]
  rw [show (fOpen : List Char) = lbrace :: 'F' :: '#' :: [] from rfl, matchTok_cons_ne _ hc t]
  rfl

theorem mLen_cons_ne {c : Char} (hc : c ≠ lbrace) (t : List Char) : mLen (c :: t) = none := by
  simp only [mLen]
  rw [show (mOpen : List Char) = lbrace :: 'M' :: '#' :: [] from rfl, matchTok_cons_ne _ hc t]
  rfl

theorem matchTok_fm (x : List Char) : matchTok fOpen (lbrace :: 'M' :: x) = none := by
  have hd : dropPre fOpen (lbrace :: 'M' :: x) = none := by
    show (if lbrace = lbrace then dropPre ('F' :: '#' :: []) ('M' :: x) else none) = none
    rw [if_pos rfl]
    show (if 'F' = 'M' then dropPre ('#' :: []) x else none) = none
    rw [if_neg (by decide)]
  simp [matchTok, hd]

theorem matchTok_mf (x : List Char) : matchTok mOpen (lbrace :: 'F' :: x) = none := by
  have hd : dropPre mOpen (lbrace :: 'F' :: x) = none := by
    show (if lbrace = lbrace then dropPre ('M' :: '#' :: []) ('F' :: x) else none) = none
    rw [if_pos rfl]
    show (if 'M' = 'F' then dropPre ('#' :: []) x else none) = none
    rw [if_neg (by decide)]
  simp [matchTok, hd]

theorem fLen_mTok (x : List Char) : fLen (lbrace :: 'M' :: x) = none := by
  simp [fLen, matchTok_fm x]

theorem searchF_chunk (chunk u : List Char) (h : ∀ c ∈ chunk, c ≠ lbrace) :
    searchTok fOpen (chunk ++ u) = searchTok fOpen u :=
  searchTok_chunk ('F' :: '#' :: []) chunk u h

theorem searchM_chunk (chunk u : List Char) (h : ∀ c ∈ chunk, c ≠ lbrace) :
    searchTok mOpen (chunk ++ u) = searchTok mOpen u :=
  searchTok_chunk ('M' :: '#' :: []) chunk u h

theorem searchF_at (a rest : List Char) (ha : ∀ c ∈ a, c ≠ rbrace ∧ c ≠ '\n') :
    searchTok fOpen (lbrace :: 'F' :: '#' :: (a ++ rbrace :: rest)) = some a :=
  searchTok_at ('F' :: '#' :: []) a rest ha

theorem searchM_at (b rest : List Char) (hb : ∀ c ∈ b, c ≠ rbrace ∧ c ≠ '\n') :
    searchTok mOpen (lbrace :: 'M' :: '#' :: (b ++ rbrace :: rest)) = some b :=
  searchTok_at ('M' :: '#' :: []) b rest hb

theorem searchM_skipF (x : List Char) :
    searchTok mOpen (lbrace :: 'F' :: x) = searchTok mOpen ('F' :: x) := by
  rw [searchTok_cons, matchTok_mf]

theorem subF_chunk (repl chunk u : List Char) (h : ∀ c ∈ chunk, c ≠ lbrace) :
    subAll fLen repl (chunk ++ u) = chunk ++ subAll fLen repl u :=
  subAll_chunk repl chunk u fun c hc t => fLen_cons_ne (h c hc) t

theorem subM_chunk (repl chunk u : List Char) (h : ∀ c ∈ chunk, c ≠ lbrace) :
    subAll mLen repl (chunk ++ u) = chunk ++ subAll mLen repl u :=
  subAll_chunk repl chunk u fun c hc t => mLen_cons_ne (h c hc) t

theorem subF_clean (repl w : List Char) (h : ∀ c ∈ w, c ≠ lbrace) :
    subAll fLen repl w = w :=
  subAll_clean repl w fun c hc t => fLen_cons_ne (h c hc) t

theorem subM_clean (repl w : List Char) (h : ∀ c ∈ w, c ≠ lbrace) :
    subAll mLen repl w = w :=
  subAll_clean repl w fun c hc t => mLen_cons_ne (h c hc) t

theorem fLen_atNF (a rest : List Char) (ha : ∀ c ∈ a, c ≠ rbrace ∧ c ≠ '\n') :
    fLen (lbrace :: 'F' :: '#' :: (a ++ rbrace :: rest)) = some (a.length + 4) := by
  have h := matchTok_self fOpen a rest ha
  have : fLen (fOpen ++ (a ++ rbrace :: rest)) = some (fOpen.length + a.length + 1) := by
    simp [fLen, h]
  rw [show (lbrace :: 'F' :: '#' :: (a ++ rbrace :: rest))
    = fOpen ++ (a ++ rbrace :: rest) from rfl, this]
  norm_num [fOpen]
  omega

theorem mLen_atNF (b rest : List Char) (hb : ∀ c ∈ b, c ≠ rbrace ∧ c ≠ '\n') :
    mLen (lbrace :: 'M' :: '#' :: (b ++ rbrace :: rest)) = some (b.length + 4) := by
  have h := matchTok_self mOpen b rest hb
  have : mLen (mOpen ++ (b ++ rbrace :: rest)) = some (mOpen.length + b.length + 1) := by
    simp [mLen, h]
  rw [show (lbrace :: 'M' :: '#' :: (b ++ rbrace :: rest))
    = mOpen ++ (b ++ rbrace :: rest) from rfl, this]
  norm_num [mOpen]
  omega

theorem subF_tok (repl a rest : List Char) (ha : ∀ c ∈ a, c ≠ rbrace ∧ c ≠ '\n') :
    subAll fLen repl (lbrace :: 'F' :: '#' :: (a ++ rbrace :: rest))
      = repl ++ subAll fLen repl rest := by
  have htok : fLen ((lbrace :: 'F' :: '#' :: (a ++ [rbrace])) ++ rest)
      = some (lbrace :: 'F' :: '#' :: (a ++ [rbrace])).length := by
    rw [show (lbrace :: 'F' :: '#' :: (a ++ [rbrace])) ++ rest
      = lbrace :: 'F' :: '#' :: (a ++ rbrace :: rest) from by simp]
    rw [fLen_atNF a rest ha]
    simp
  have := subAll_tok repl fLen_pos (lbrace :: 'F' :: '#' :: (a ++ [rbrace])) rest
    (by simp) htok
  rw [show (lbrace :: 'F' :: '#' :: (a ++ rbrace :: rest))
    = (lbrace :: 'F' :: '#' :: (a ++ [rbrace])) ++ rest from by simp]
  exact this

theorem subM_tok (b rest : List Char) (hb : ∀ c ∈ b, c ≠ rbrace ∧ c ≠ '\n') :
    subAll mLen [] (lbrace :: 'M' :: '#' :: (b ++ rbrace :: rest))
      = subAll mLen [] rest := by
  have htok : mLen ((lbrace :: 'M' :: '#' :: (b ++ [rbrace])) ++ rest)
      = some (lbrace :: 'M' :: '#' :: (b ++ [rbrace])).length := by
    rw [show (lbrace :: 'M' :: '#' :: (b ++ [rbrace])) ++ rest
      = lbrace :: 'M' :: '#' :: (b ++ rbrace :: rest) from by simp]
    rw [mLen_atNF b rest hb]
    simp
  have := subAll_tok [] mLen_pos (lbrace :: 'M' :: '#' :: (b ++ [rbrace])) rest
    (by simp) htok
  rw [show (lbrace :: 'M' :: '#' :: (b ++ rbrace :: rest))
    = (lbrace :: 'M' :: '#' :: (b ++ [rbrace])) ++ rest from by simp]
  simpa using this

theorem subF_skipM (repl x : List Char) :
    subAll fLen repl (lbrace :: 'M' :: x) = lbrace :: subAll fLen repl ('M' :: x) :=
  subAll_cons_miss repl (fLen_mTok x)

/-- Counterexample to C4: the unrestricted claim fails in two independent
ways. First, the final hash-strip also deletes `#` characters inside the
substituted phrases: the text `{F#x#y}{M#b}` yields `xy/b`, which does not
contain the promised substring `x#y/b`. Second, `re.sub` processes the
replacement as a template: a female phrase `x\1y` has its `\1` expanded as
a group reference, producing `xx\1yy/b` (which does not contain `x\1y/b`),
and a phrase with a bad escape such as `x\qy` makes `re.sub` raise
`re.error`, so nothing is returned at all. -/
theorem c4_counterexample :
    (replace_pronouns_full
        [lbrace, 'F', '#', 'x', '#', 'y', rbrace, lbrace, 'M', '#', 'b', rbrace]
      = some ['x', 'y', '/', 'b']
    ∧ containsSub ['x', '#', 'y', '/', 'b'] ['x', 'y', '/', 'b'] = false)
    ∧ (replace_pronouns_full
        [lbrace, 'F', '#', 'x', '\\', '1', 'y', rbrace, lbrace, 'M', '#', 'b', rbrace]
      = some ['x', 'x', '\\', '1', 'y', 'y', '/', 'b']
    ∧ containsSub ['x', '\\', '1', 'y', '/', 'b']
        ['x', 'x', '\\', '1', 'y', 'y', '/', 'b'] = false)
    ∧ replace_pronouns_full
        [lbrace, 'F', '#', 'x', '\\', 'q', 'y', rbrace, lbrace, 'M', '#', 'b', rbrace]
      = none := by
  decide

/-- C4 (amended): for text of the shape `pre·{F#a}·mid·{M#b}·post` where the
phrases `a`, `b` contain no brace, `#`, newline, or backslash (a backslash
would make `re.sub` process the replacement as a non-literal template), and
`pre`, `mid`, `post` contain no opening brace and no `#`, the pronoun step
returns exactly `pre·a/b·mid·post`: it contains the substring `a/b`, the
male token is deleted entirely, and no `#` remains. Text in which the
female or the male search fails passes through unchanged. -/
theorem c4_theorem :
    (∀ pre a mid b post : List Char,
      (∀ c ∈ pre, c ≠ lbrace ∧ c ≠ '#') →
      (∀ c ∈ a, c ≠ lbrace ∧ c ≠ rbrace ∧ c ≠ '#' ∧ c ≠ '\n' ∧ c ≠ '\\') →
      (∀ c ∈ mid, c ≠ lbrace ∧ c ≠ '#') →
      (∀ c ∈ b, c ≠ lbrace ∧ c ≠ rbrace ∧ c ≠ '#' ∧ c ≠ '\n' ∧ c ≠ '\\') →
      (∀ c ∈ post, c ≠ lbrace ∧ c ≠ '#') →
      replace_pronouns_full
          (pre ++ fOpen ++ a ++ [rbrace] ++ mid ++ mOpen ++ b ++ [rbrace] ++ post)
        = some (pre ++ (a ++ '/' :: b) ++ mid ++ post)
      ∧ containsSub (a ++ '/' :: b) (pre ++ (a ++ '/' :: b) ++ mid ++ post) = true
      ∧ (∀ c ∈ pre ++ (a ++ '/' :: b) ++ mid ++ post, c ≠ '#'))
    ∧ (∀ u, searchTok fOpen u = none ∨ searchTok mOpen u = none →
        replace_pronouns_full u = some u) := by
  constructor
  · intro pre a mid b post hpre ha hmid hb hpost
    have haR : ∀ c ∈ a, c ≠ rbrace ∧ c ≠ '\n' :=
      fun c hc => ⟨(ha c hc).2.1, (ha c hc).2.2.2.1⟩
    have hbR : ∀ c ∈ b, c ≠ rbrace ∧ c ≠ '\n' :=
      fun c hc => ⟨(hb c hc).2.1, (hb c hc).2.2.2.1⟩
    have haB : ∀ c ∈ a, c ≠ '\\' := fun c hc => (ha c hc).2.2.2.2
    have hbB : ∀ c ∈ b, c ≠ '\\' := fun c hc => (hb c hc).2.2.2.2
    have hpreL : ∀ c ∈ pre, c ≠ lbrace := fun c hc => (hpre c hc).1
    have hmidL : ∀ c ∈ mid, c ≠ lbrace := fun c hc => (hmid c hc).1
    have hpostL : ∀ c ∈ post, c ≠ lbrace := fun c hc => (hpost c hc).1
    -- the right-associated shape of the input text
    have e1 : pre ++ fOpen ++ a ++ [rbrace] ++ mid ++ mOpen ++ b ++ [rbrace] ++ post
        = pre ++ (lbrace :: 'F' :: '#' ::
            (a ++ rbrace :: (mid ++ (lbrace :: 'M' :: '#' :: (b ++ rbrace :: post))))) := by
      simp [fOpen, mOpen, List.append_assoc]
    -- the searches find the two phrases
    have hsF : searchTok fOpen
        (pre ++ fOpen ++ a ++ [rbrace] ++ mid ++ mOpen ++ b ++ [rbrace] ++ post) = some a := by
      rw [e1, searchF_chunk pre _ hpreL, searchF_at a _ haR]
    have hch2 : ∀ c ∈ 'F' :: '#' :: (a ++ rbrace :: mid), c ≠ lbrace := by
      intro c hc
      simp only [List.mem_cons, List.mem_append] at hc
      rcases hc with h | h | h | h | h
      · subst h; decide
      · subst h; decide
      · exact (ha c h).1
      · subst h; decide
      · exact hmidL c h
    have hsM : searchTok mOpen
        (pre ++ fOpen ++ a ++ [rbrace] ++ mid ++ mOpen ++ b ++ [rbrace] ++ post) = some b := by
      rw [e1, searchM_chunk pre _ hpreL, searchM_skipF]
      rw [show 'F' :: '#' :: (a ++ rbrace :: (mid ++ (lbrace :: 'M' :: '#' :: (b ++ rbrace :: post))))
        = ('F' :: '#' :: (a ++ rbrace :: mid))
            ++ (lbrace :: 'M' :: '#' :: (b ++ rbrace :: post)) from by
          simp [List.append_assoc]]
      rw [searchM_chunk _ _ hch2, searchM_at b _ hbR]
    -- the female substitution pass
    have hcleanF : ∀ c ∈ 'M' :: '#' :: (b ++ rbrace :: post), c ≠ lbrace := by
      intro c hc
      simp only [List.mem_cons, List.mem_append] at hc
      rcases hc with h | h | h | h | h
      · subst h; decide
      · subst h; decide
      · exact (hb c h).1
      · subst h; decide
      · exact hpostL c h
    have hs1 : subAll fLen (a ++ '/' :: b)
        (pre ++ fOpen ++ a ++ [rbrace] ++ mid ++ mOpen ++ b ++ [rbrace] ++ post)
        = pre ++ ((a ++ '/' :: b)
            ++ (mid ++ (lbrace :: 'M' :: '#' :: (b ++ rbrace :: post)))) := by
      rw [e1, subF_chunk _ pre _ hpreL, subF_tok _ a _ haR,
        subF_chunk _ mid _ hmidL, subF_skipM, subF_clean _ _ hcleanF]
    -- the male deletion pass
    have hchM : ∀ c ∈ pre ++ ((a ++ '/' :: b) ++ mid), c ≠ lbrace := by
      intro c hc
      simp only [List.mem_append, List.mem_cons] at hc
      rcases hc with h | (h | h | h) | h
      · exact hpreL c h
      · exact (ha c h).1
      · subst h; decide
      · exact (hb c h).1
      · exact hmidL c h
    have hs2 : subAll mLen []
        (pre ++ ((a ++ '/' :: b) ++ (mid ++ (lbrace :: 'M' :: '#' :: (b ++ rbrace :: post)))))
        = pre ++ ((a ++ '/' :: b) ++ mid) ++ post := by
      rw [show pre ++ ((a ++ '/' :: b) ++ (mid ++ (lbrace :: 'M' :: '#' :: (b ++ rbrace :: post))))
        = (pre ++ ((a ++ '/' :: b) ++ mid))
            ++ (lbrace :: 'M' :: '#' :: (b ++ rbrace :: post)) from by
          simp [List.append_assoc]]
      rw [subM_chunk _ _ _ hchM, subM_tok b _ hbR, subM_clean _ post hpostL]
    -- everything in the result is hash-free
    have hmem : ∀ c ∈ pre ++ ((a ++ '/' :: b) ++ mid) ++ post, c ≠ '#' := by
      intro c hc
      simp only [List.mem_append, List.mem_cons] at hc
      rcases hc with (h | (h | h | h) | h) | h
      · exact (hpre c h).2
      · exact (ha c h).2.2.1
      · subst h; decide
      · exact (hb c h).2.2.1
      · exact (hmid c h).2
      · exact (hpost c h).2
    have hout : replace_pronouns
        (pre ++ fOpen ++ a ++ [rbrace] ++ mid ++ mOpen ++ b ++ [rbrace] ++ post)
        = pre ++ (a ++ '/' :: b) ++ mid ++ post := by
      unfold replace_pronouns
      simp only [hsF, hsM]
      rw [show (a ++ '/' :: b)
        ++ (mid ++ (lbrace :: 'M' :: '#' :: (b ++ rbrace :: post)))
        = (a ++ '/' :: b) ++ (mid ++ (lbrace :: 'M' :: '#' :: (b ++ rbrace :: post)))
        from rfl] at hs1
      rw [hs1, hs2]
      rw [List.filter_eq_self.mpr (fun c hc => by simpa using hmem c hc)]
      simp [List.append_assoc]
    refine ⟨?_, ?_, ?_⟩
    · rw [replace_pronouns_full_eq _ a b hsF hsM haB hbB, hout]
    · rw [show pre ++ (a ++ '/' :: b) ++ mid ++ post
        = pre ++ (a ++ '/' :: b) ++ (mid ++ post) from by simp [List.append_assoc]]
      exact containsSub_append_self pre _ (mid ++ post)
    · intro c hc
      apply hmem c
      rw [show pre ++ ((a ++ '/' :: b) ++ mid) ++ post
        = pre ++ (a ++ '/' :: b) ++ mid ++ post from by simp [List.append_assoc]]
      exact hc
  · intro u h
    exact replace_pronouns_full_skip h

/-- Witness for C4 at a concrete text with clean phrases and surrounding text. -/
theorem c4_witness :
    replace_pronouns_full
        ("Then ".toList ++ fOpen ++ "she".toList ++ [rbrace] ++ " or ".toList
          ++ mOpen ++ "he".toList ++ [rbrace] ++ " left.".toList)
      = some ("Then ".toList ++ ("she".toList ++ '/' :: "he".toList) ++ " or ".toList
          ++ " left.".toList) :=
  ((c4_theorem.1 "Then ".toList "she".toList " or ".toList "he".toList " left.".toList
    (by decide) (by decide) (by decide) (by decide) (by decide)).1)

/-! Totality analysis of `replace_placeholders` (C2). -/

theorem phList_ne_nil (i : Nat) : phList i ≠ [] := by simp [phList]

theorem phKey_ne_nil (k : List Char) : phKey k ≠ [] := by simp [phKey]

theorem phList_getLast (i : Nat) : (phList i).getLast? = some ']' := by
  rw [show phList i = ('#' :: 'i' :: '[' :: natChars i) ++ [']'] from rfl]
  exact List.getLast?_concat _

theorem phKey_getLast (k : List Char) : (phKey k).getLast? = some ']' := by
  rw [show phKey k = ['#'] ++ (k ++ ['[', 'i', ']']) from rfl]
  rw [List.getLast?_append_of_ne_nil ['#'] (by simp)]
  rw [List.getLast?_append_of_ne_nil k (by simp)]
  rfl

theorem nextLetter_of_contains {pat s : List Char} (hpat : pat ≠ [])
    (hlast : pat.getLast? = some ']') (hs : s.getLast? ≠ some ']')
    (hc : containsSub pat s = true) : ∃ ch, find_next_letter s pat = some ch := by
  have hfs : (findSub pat s).isSome = true := by rw [findSub_isSome]; exact hc
  rcases Option.isSome_iff_exists.mp hfs with ⟨i, hi⟩
  rcases findSub_decomp pat s i hi with ⟨A, r, hAr, hAl⟩
  cases r with
  | nil =>
    exfalso
    apply hs
    rw [hAr, List.append_nil, List.getLast?_append_of_ne_nil A hpat, hlast]
  | cons c r2 =>
    refine ⟨c, ?_⟩
    unfold find_next_letter
    rw [hi, hAr]
    have h1 : (A ++ pat ++ (c :: r2))[i + pat.length]? = some c := by
      have hlen : (A ++ pat).length ≤ i + pat.length := by
        simp [hAl]
      rw [show A ++ pat ++ (c :: r2) = (A ++ pat) ++ (c :: r2) from rfl,
        List.getElem?_append_right hlen]
      have : i + pat.length - (A ++ pat).length = 0 := by
        simp [hAl]
      rw [this]
      simp
    exact h1

theorem replaceAll_ne_nil {pat rep : List Char} (hrep : rep ≠ []) {s : List Char}
    (hs : s ≠ []) : replaceAll pat rep s ≠ [] := by
  cases s with
  | nil => exact absurd rfl hs
  | cons c t =>
    cases hdp : dropPre pat (c :: t) with
    | none =>
      rw [replaceAll_cons_miss rep hdp]
      simp
    | some rest =>
      cases pat with
      | nil =>
        rw [replaceAll]
        simp only [List.length_cons, replaceAllF, dropPre]
        simp [hrep]
      | cons p ps =>
        rw [replaceAll_cons_match rep (by simp) hdp]
        simp [hrep]

theorem replaceAll_getLast_ne {pat rep : List Char} (hpat : pat ≠ []) (hrep : rep ≠ [])
    (hrl : rep.getLast? ≠ some ']') :
    ∀ n s, s.length ≤ n → s.getLast? ≠ some ']' →
      (replaceAll pat rep s).getLast? ≠ some ']' := by
  intro n
  induction n with
  | zero =>
    intro s hn _
    have : s = [] := List.length_eq_zero.mp (Nat.le_zero.mp hn)
    subst this
    simp [replaceAll_nil]
  | succ n ih =>
    intro s hn hs
    cases s with
    | nil => simp [replaceAll_nil]
    | cons c t =>
      cases hdp : dropPre pat (c :: t) with
      | some rest =>
        rw [replaceAll_cons_match rep hpat hdp]
        have heq := dropPre_eq_append pat _ rest hdp
        cases hrest : rest with
        | nil =>
          subst hrest
          rw [replaceAll_nil, List.append_nil]
          exact hrl
        | cons d r2 =>
          subst hrest
          have hlast : (d :: r2).getLast? = (c :: t).getLast? := by
            rw [heq, List.getLast?_append_of_ne_nil pat (by simp)]
          have hL := congrArg List.length heq
          have hp1 : 1 ≤ pat.length := by
            cases pat with
            | nil => exact absurd rfl hpat
            | cons _ _ => simp
          have hlen : (d :: r2).length ≤ n := by
            simp only [List.length_cons, List.length_append] at hL hn ⊢
            omega
          have hy := ih (d :: r2) hlen (by rw [hlast]; exact hs)
          have hyne : replaceAll pat rep (d :: r2) ≠ [] :=
            replaceAll_ne_nil hrep (by simp)
          rw [List.getLast?_append_of_ne_nil rep hyne]
          exact hy
      | none =>
        rw [replaceAll_cons_miss rep hdp]
        cases t with
        | nil =>
          rw [replaceAll_nil]
          simpa using hs
        | cons d t2 =>
          have hlast : (d :: t2).getLast? = (c :: d :: t2).getLast? := by
            rw [show (c :: d :: t2) = [c] ++ (d :: t2) from rfl,
              List.getLast?_append_of_ne_nil [c] (by simp)]
          have hy := ih (d :: t2) (by simpa using hn) (by rw [hlast]; exact hs)
          have hyne : replaceAll pat rep (d :: t2) ≠ [] := replaceAll_ne_nil hrep (by simp)
          rw [show (c :: replaceAll pat rep (d :: t2))
            = [c] ++ replaceAll pat rep (d :: t2) from rfl,
            List.getLast?_append_of_ne_nil [c] hyne]
          exact hy

theorem goList_total : ∀ (ps : List Int) (i : Nat) (s : List Char),
    s.getLast? ≠ some ']' → (goList ps i s).isSome = true := by
  intro ps
  induction ps with
  | nil => intro i s _; simp [goList]
  | cons v vs ih =>
    intro i s hs
    by_cases hc : containsSub (phList i) s = true
    · rcases nextLetter_of_contains (phList_ne_nil i) (phList_getLast i) hs hc with ⟨ch, hch⟩
      simp only [goList, hc, if_true, hch]
      apply ih
      exact replaceAll_getLast_ne (phList_ne_nil i) (intChars_ne_nil _)
        (fun h => intChars_getLast_ne _ _ h rfl) s.length s le_rfl hs
    · simp only [Bool.not_eq_true] at hc
      simp only [goList, hc, Bool.false_eq_true, if_false]
      exact ih (i + 1) s hs

theorem goDict_total : ∀ (kvs : List (List Char × List Int)) (s : List Char),
    s.getLast? ≠ some ']' → (∀ kv ∈ kvs, kv.2 ≠ []) → (goDict kvs s).isSome = true := by
  intro kvs
  induction kvs with
  | nil => intro s _ _; simp [goDict]
  | cons kv rest ih =>
    intro s hs hv
    obtain ⟨k, vs⟩ := kv
    cases vs with
    | nil => exact absurd rfl (hv (k, []) (List.mem_cons_self _ _))
    | cons v vs2 =>
      have hvr : ∀ kv ∈ rest, kv.2 ≠ [] := fun kv hm => hv kv (List.mem_cons_of_mem _ hm)
      by_cases hc : containsSub (phKey k) s = true
      · rcases nextLetter_of_contains (phKey_ne_nil k) (phKey_getLast k) hs hc with ⟨ch, hch⟩
        simp only [goDict, List.head?_cons, hc, if_true, hch]
        apply ih _ _ hvr
        exact replaceAll_getLast_ne (phKey_ne_nil k) (intChars_ne_nil _)
          (fun h => intChars_getLast_ne _ _ h rfl) s.length s le_rfl hs
      · simp only [Bool.not_eq_true] at hc
        simp only [goDict, List.head?_cons, hc, Bool.false_eq_true, if_false]
        exact ih s hs hvr

/-- C2 (amended): `replace_placeholders` is pure but not total. It fails
exactly through `find_next_letter` indexing past the end (a referenced
token whose first occurrence ends the string) or an empty keyed value list.
For every string whose last character is not `]` — so no placeholder token
can end it — it returns a result for every positional list, and for every
keyed mapping whose value lists are nonempty; `params = None` always
returns the text unchanged. -/
theorem c2_theorem :
    (∀ s, replace_placeholders s .noneP = some s)
    ∧ (∀ s (ps : List Int), s.getLast? ≠ some ']' →
        (replace_placeholders s (.posP ps)).isSome = true)
    ∧ (∀ s (kvs : List (List Char × List Int)), s.getLast? ≠ some ']' →
        (∀ kv ∈ kvs, kv.2 ≠ []) → (replace_placeholders s (.keyP kvs)).isSome = true) := by
  refine ⟨fun s => rfl, ?_, ?_⟩
  · intro s ps hs
    exact goList_total ps 0 s hs
  · intro s kvs hs hv
    exact goDict_total kvs s hs hv

/-- Witness for C2 at concrete inputs whose last character is not `]`. -/
theorem c2_witness :
    (replace_placeholders "Deal #i[0]% damage".toList (.posP [3, 7])).isSome = true
    ∧ (replace_placeholders "Gain #x[i] points".toList
        (.keyP [("x".toList, [4])])).isSome = true
    ∧ replace_placeholders "raw".toList .noneP = some "raw".toList :=
  ⟨c2_theorem.2.1 "Deal #i[0]% damage".toList [3, 7] (by decide),
   c2_theorem.2.2 "Gain #x[i] points".toList [("x".toList, [4])] (by decide) (by decide),
   c2_theorem.1 "raw".toList⟩

/-! Chunk-transparency lemmas for `#`-headed patterns (C1). -/

theorem hashChunk_contains {pat : List Char} (hp : pat.head? = some '#') :
    ∀ chunk u, (∀ c ∈ chunk, c ≠ '#') →
      containsSub pat (chunk ++ u) = containsSub pat u := by
  intro chunk
  induction chunk with
  | nil => intro u _; rfl
  | cons c t ih =>
    intro u h
    have hc : c ≠ '#' := h c (List.mem_cons_self _ _)
    have hip : isPre pat (c :: (t ++ u)) = false := isPre_head_ne hp (fun he => hc he.symm) _
    calc containsSub pat ((c :: t) ++ u)
        = (isPre pat (c :: (t ++ u)) || containsSub pat (t ++ u)) := rfl
      _ = containsSub pat u := by
          rw [hip, Bool.false_or]
          exact ih u fun x hx => h x (List.mem_cons_of_mem _ hx)

theorem hashChunk_replace {pat : List Char} (rep : List Char) (hp : pat.head? = some '#') :
    ∀ chunk u, (∀ c ∈ chunk, c ≠ '#') →
      replaceAll pat rep (chunk ++ u) = chunk ++ replaceAll pat rep u := by
  intro chunk
  induction chunk with
  | nil => intro u _; rfl
  | cons c t ih =>
    intro u h
    have hc : c ≠ '#' := h c (List.mem_cons_self _ _)
    have hip : isPre pat (c :: (t ++ u)) = false := isPre_head_ne hp (fun he => hc he.symm) _
    rw [List.cons_append, replaceAll_cons_miss rep (isPre_false_dropPre hip),
      ih u fun x hx => h x (List.mem_cons_of_mem _ hx)]
    rfl

theorem fnl_cons_step {pat : List Char} {c : Char} {w : List Char}
    (hip : isPre pat (c :: w) = false) (hc : containsSub pat w = true) :
    find_next_letter (c :: w) pat = find_next_letter w pat := by
  have hfs : (findSub pat w).isSome = true := by rw [findSub_isSome]; exact hc
  rcases Option.isSome_iff_exists.mp hfs with ⟨j, hj⟩
  unfold find_next_letter
  rw [show findSub pat (c :: w) = (findSub pat w).map (· + 1) from by
    simp [findSub, hip]]
  rw [hj]
  simp only [Option.map_some']
  rw [show j + 1 + pat.length = (j + pat.length) + 1 from by omega,
    List.getElem?_cons_succ]

theorem hashChunk_fnl {pat : List Char} (hp : pat.head? = some '#') :
    ∀ chunk u, (∀ c ∈ chunk, c ≠ '#') → containsSub pat u = true →
      find_next_letter (chunk ++ u) pat = find_next_letter u pat := by
  intro chunk
  induction chunk with
  | nil => intro u _ _; rfl
  | cons c t ih =>
    intro u h hc
    have hcne : c ≠ '#' := h c (List.mem_cons_self _ _)
    have hip : isPre pat (c :: (t ++ u)) = false :=
      isPre_head_ne hp (fun he => hcne he.symm) _
    have hrec : containsSub pat (t ++ u) = true := by
      rw [hashChunk_contains hp t u fun x hx => h x (List.mem_cons_of_mem _ hx)]
      exact hc
    rw [List.cons_append, fnl_cons_step hip hrec,
      ih u (fun x hx => h x (List.mem_cons_of_mem _ hx)) hc]

theorem fnl_at_tok (pat u : List Char) :
    find_next_letter (pat ++ u) pat = u.head? := by
  have hip : isPre pat (pat ++ u) = true := by
    simp [isPre, dropPre_self_append]
  unfold find_next_letter
  have hfs : findSub pat (pat ++ u) = some 0 := by
    cases hpu : pat ++ u with
    | nil => rw [hpu] at hip; simp [findSub, hip]
    | cons c w => rw [hpu] at hip; simp [findSub, hip]
  simp only [hfs]
  have hlen : pat.length ≤ 0 + pat.length := by omega
  rw [List.getElem?_append_right hlen]
  have : 0 + pat.length - pat.length = 0 := by omega
  rw [this]
  cases u <;> simp

theorem containsSub_self_append (pat B : List Char) : containsSub pat (pat ++ B) = true := by
  have := containsSub_append_self [] pat B
  simpa using this

/-! Injectivity of the decimal rendering and token-boundary facts (C1). -/

theorem digitChar_inj : ∀ m < 10, ∀ n < 10, digitChar m = digitChar n → m = n := by decide

theorem natCharsF_inj : ∀ f g m n, m < f → n < g →
    natCharsF f m = natCharsF g n → m = n := by
  intro f
  induction f with
  | zero => intro g m n hm _ _; omega
  | succ f ih =>
    intro g m n hm hn h
    cases g with
    | zero => omega
    | succ g =>
      by_cases h10m : m < 10
      · by_cases h10n : n < 10
        · simp only [natCharsF, if_pos h10m, if_pos h10n, List.cons.injEq] at h
          exact digitChar_inj m h10m n h10n h.1
        · exfalso
          simp only [natCharsF, if_pos h10m, if_neg h10n] at h
          have h1 := congrArg List.length h
          have hne : natCharsF g (n / 10) ≠ [] := by
            apply natCharsF_ne_nil
            omega
          have hlen : 1 ≤ (natCharsF g (n / 10)).length := by
            cases hx : natCharsF g (n / 10) with
            | nil => exact absurd hx hne
            | cons _ _ => simp
          simp only [List.length_cons, List.length_nil, List.length_append,
            List.length_singleton] at h1
          omega
      · by_cases h10n : n < 10
        · exfalso
          simp only [natCharsF, if_neg h10m, if_pos h10n] at h
          have h1 := congrArg List.length h
          have hne : natCharsF f (m / 10) ≠ [] := by
            apply natCharsF_ne_nil
            omega
          have hlen : 1 ≤ (natCharsF f (m / 10)).length := by
            cases hx : natCharsF f (m / 10) with
            | nil => exact absurd hx hne
            | cons _ _ => simp
          simp only [List.length_cons, List.length_nil, List.length_append,
            List.length_singleton] at h1
          omega
        · simp only [natCharsF, if_neg h10m, if_neg h10n] at h
          have hsplit := List.append_inj' h (by simp)
          have hd : m / 10 = n / 10 := by
            apply ih g (m / 10) (n / 10) _ _ hsplit.1
            · have : m / 10 < m := Nat.div_lt_self (by omega) (by omega)
              omega
            · have : n / 10 < n := Nat.div_lt_self (by omega) (by omega)
              omega
          have hmod : m % 10 = n % 10 := by
            have h2 : digitChar (m % 10) = digitChar (n % 10) := by
              have := hsplit.2
              simpa using this
            exact digitChar_inj _ (Nat.mod_lt _ (by omega)) _ (Nat.mod_lt _ (by omega)) h2
          omega

theorem natChars_inj {m n : Nat} (h : natChars m = natChars n) : m = n :=
  natCharsF_inj (m + 1) (n + 1) m n (by omega) (by omega) h

/-- If two bracket-free words are each followed by the same boundary
character, a prefix match of one word-plus-boundary against the other
forces the words to be equal. -/
theorem boundary_eq (br : Char) :
    ∀ a b z w : List Char, (∀ c ∈ a, c ≠ br) → (∀ c ∈ b, c ≠ br) →
      isPre (a ++ br :: z) (b ++ br :: w) = true → a = b := by
  intro a
  induction a with
  | nil =>
    intro b z w _ hb h
    cases b with
    | nil => rfl
    | cons c bt =>
      exfalso
      simp only [List.nil_append, List.cons_append] at h
      have hc : c ≠ br := hb c (List.mem_cons_self _ _)
      rw [isPre_head_ne (by rfl) (fun he => hc he.symm) _] at h
      exact Bool.false_ne_true h
  | cons c at2 ih =>
    intro b z w ha hb h
    cases b with
    | nil =>
      exfalso
      simp only [List.cons_append, List.nil_append] at h
      have hc : c ≠ br := ha c (List.mem_cons_self _ _)
      have : isPre (c :: (at2 ++ br :: z)) (br :: w) = false := by
        cases hd : dropPre (c :: (at2 ++ br :: z)) (br :: w) with
        | none => simp [isPre, hd]
        | some r =>
          exfalso
          have : (if c = br then dropPre (at2 ++ br :: z) w else none) = some r := hd
          rw [if_neg hc] at this
          simp at this
      rw [this] at h
      exact Bool.false_ne_true h
    | cons d bt =>
      simp only [List.cons_append] at h
      have hstep : c = d ∧ isPre (at2 ++ br :: z) (bt ++ br :: w) = true := by
        by_cases hcd : c = d
        · constructor
          · exact hcd
          · have : isPre (c :: (at2 ++ br :: z)) (d :: (bt ++ br :: w))
                = isPre (at2 ++ br :: z) (bt ++ br :: w) := by
              subst hcd
              show (dropPre (c :: (at2 ++ br :: z)) (c :: (bt ++ br :: w))).isSome
                = (dropPre (at2 ++ br :: z) (bt ++ br :: w)).isSome
              rw [show dropPre (c :: (at2 ++ br :: z)) (c :: (bt ++ br :: w))
                = dropPre (at2 ++ br :: z) (bt ++ br :: w) from by
                  show (if c = c then dropPre (at2 ++ br :: z) (bt ++ br :: w) else none) = _
                  rw [if_pos rfl]]
            rw [← this]
            exact h
        · exfalso
          have : dropPre (c :: (at2 ++ br :: z)) (d :: (bt ++ br :: w)) = none := by
            show (if c = d then dropPre (at2 ++ br :: z) (bt ++ br :: w) else none) = none
            rw [if_neg hcd]
          rw [isPre, this] at h
          simp at h
      have := ih bt z w (fun x hx => ha x (List.mem_cons_of_mem _ hx))
        (fun x hx => hb x (List.mem_cons_of_mem _ hx)) hstep.2
      rw [hstep.1, this]

theorem natChars_ne_bracket (i : Nat) : ∀ c ∈ natChars i, c ≠ ']' := by
  intro c hc
  rcases natChars_mem i c hc with ⟨k, hk, he⟩
  subst he
  exact (digit_facts k hk).2.2.1

theorem phList_facts (i : Nat) :
    phList i = '#' :: ('i' :: '[' :: (natChars i ++ [']']))
    ∧ ∀ c ∈ 'i' :: '[' :: (natChars i ++ [']']), c ≠ '#' := by
  refine ⟨rfl, ?_⟩
  intro c hc
  simp only [List.mem_cons, List.mem_append, List.mem_singleton] at hc
  rcases hc with h | h | h | h
  · subst h; decide
  · subst h; decide
  · rcases natChars_mem i c h with ⟨k, hk, he⟩
    subst he
    exact (digit_facts k hk).1
  · rcases h with h | h
    · subst h; decide
    · simp at h

theorem isPre_cons_same {c : Char} {p s : List Char} :
    isPre (c :: p) (c :: s) = isPre p s := by
  show (dropPre (c :: p) (c :: s)).isSome = (dropPre p s).isSome
  rw [show dropPre (c :: p) (c :: s) = dropPre p s from by
    show (if c = c then dropPre p s else none) = dropPre p s
    rw [if_pos rfl]]

theorem phList_sep (i j : Nat) (u : List Char)
    (h : isPre (phList i) (phList j ++ u) = true) : i = j := by
  have h2 : isPre (natChars i ++ [']']) (natChars j ++ (']' :: u)) = true := by
    have e : phList j ++ u = '#' :: 'i' :: '[' :: (natChars j ++ (']' :: u)) := by
      show ('#' :: 'i' :: '[' :: (natChars j ++ [']'])) ++ u = _
      simp [List.append_assoc]
    rw [e] at h
    rw [show phList i = '#' :: 'i' :: '[' :: (natChars i ++ [']']) from rfl] at h
    rw [isPre_cons_same, isPre_cons_same, isPre_cons_same] at h
    exact h
  have := boundary_eq ']' (natChars i) (natChars j) [] u
    (natChars_ne_bracket i) (natChars_ne_bracket j)
    (by rw [show natChars j ++ ']' :: u = natChars j ++ (']' :: u) from rfl]; exact h2)
  exact natChars_inj this

theorem phKey_facts (k : List Char) (hk : ∀ c ∈ k, c ≠ '#') :
    phKey k = '#' :: (k ++ ['[', 'i', ']'])
    ∧ ∀ c ∈ k ++ ['[', 'i', ']'], c ≠ '#' := by
  refine ⟨rfl, ?_⟩
  intro c hc
  simp only [List.mem_append, List.mem_cons, List.mem_singleton] at hc
  rcases hc with h | h | h | h
  · exact hk c h
  · subst h; decide
  · subst h; decide
  · rcases h with h | h
    · subst h; decide
    · simp at h

theorem phKey_sep (ki kj : List Char) (u : List Char)
    (hki : ∀ c ∈ ki, c ≠ '[') (hkj : ∀ c ∈ kj, c ≠ '[')
    (h : isPre (phKey ki) (phKey kj ++ u) = true) : ki = kj := by
  have h2 : isPre (ki ++ '[' :: ['i', ']']) (kj ++ ('[' :: (['i', ']'] ++ u))) = true := by
    have e : phKey kj ++ u = '#' :: (kj ++ ('[' :: (['i', ']'] ++ u))) := by
      show ('#' :: (kj ++ ['[', 'i', ']'])) ++ u = _
      simp [List.append_assoc]
    rw [e] at h
    rw [show phKey ki = '#' :: (ki ++ ('[' :: ['i', ']'])) from rfl] at h
    rw [isPre_cons_same] at h
    exact h
  exact boundary_eq '[' ki kj ['i', ']'] (['i', ']'] ++ u) hki hkj h2

/-! Structural lemmas about template rendering and substitution (C1). -/

theorem head?_append_ne_nil {a : List Char} (b : List Char) (ha : a ≠ []) :
    (a ++ b).head? = a.head? := by
  cases a with
  | nil => exact absurd rfl ha
  | cons c t => rfl

theorem substWith_append {ι : Type} (ph : ι → List Char) (val : ι → Option Int) :
    ∀ (A B : List (Piece ι)) (u : List Char),
      substWith ph val (A ++ B) u = substWith ph val A (substWith ph val B u) := by
  intro A
  induction A with
  | nil => intro B u; rfl
  | cons p r ih =>
    intro B u
    cases p with
    | lit cs => simp only [List.cons_append, List.append_eq, substWith, ih]
    | tok k => simp only [List.cons_append, List.append_eq, substWith, ih]

theorem substWith_none {ι : Type} (ph : ι → List Char) :
    ∀ (T : List (Piece ι)) (u : List Char),
      substWith ph (fun _ => none) T u = render ph T ++ u := by
  intro T
  induction T with
  | nil => intro u; rfl
  | cons p r ih =>
    intro u
    cases p with
    | lit cs => simp only [substWith, render, ih, List.append_assoc]
    | tok k => simp only [substWith, render, ih, List.append_assoc]

theorem toks_append {ι : Type} :
    ∀ (A B : List (Piece ι)), toks (A ++ B) = toks A ++ toks B := by
  intro A
  induction A with
  | nil => intro B; rfl
  | cons p r ih =>
    intro B
    cases p with
    | lit cs => simp only [List.cons_append, List.append_eq, toks, ih]
    | tok k => simp only [List.cons_append, List.append_eq, toks, ih]

theorem tok_mem_toks {ι : Type} : ∀ (T : List (Piece ι)) (i : ι),
    Piece.tok i ∈ T ↔ i ∈ toks T := by
  intro T i
  induction T with
  | nil => simp [toks]
  | cons p r ih =>
    cases p with
    | lit cs => simp [toks, ih]
    | tok k => simp [toks, ih]

theorem substWith_ne_nil {ι : Type} (ph : ι → List Char) (val : ι → Option Int) :
    ∀ (T : List (Piece ι)), (∀ k ∈ toks T, ph k ≠ []) →
      T.any pieceNonempty = true → ∀ u, substWith ph val T u ≠ [] := by
  intro T
  induction T with
  | nil => intro _ h u; simp at h
  | cons p r ih =>
    intro hph hany u
    cases p with
    | lit cs =>
      simp only [List.any_cons, pieceNonempty, Bool.or_eq_true] at hany
      rcases hany with h | h
      · cases cs with
        | nil => simp at h
        | cons c t => simp [substWith]
      · have := ih (fun k hk => hph k (by simp [toks]; exact hk)) h u
        cases cs with
        | nil => simpa [substWith] using this
        | cons c t => simp [substWith]
    | tok k =>
      simp only [substWith]
      cases hv : val k with
      | none =>
        have hphk := hph k (by simp [toks])
        cases hphk2 : ph k with
        | nil => exact absurd hphk2 hphk
        | cons c t => simp
      | some v =>
        have := intChars_ne_nil (if (substWith ph val r u).head? = some '%' then v * 100 else v)
        cases hic : intChars (if (substWith ph val r u).head? = some '%' then v * 100 else v) with
        | nil => exact absurd hic this
        | cons c t => simp [hic]

theorem followedOk_decomp {ι : Type} :
    ∀ (A : List (Piece ι)) (i : ι) (B : List (Piece ι)),
      followedOk (A ++ Piece.tok i :: B) = true → B.any pieceNonempty = true := by
  intro A
  induction A with
  | nil =>
    intro i B h
    simp only [List.nil_append, followedOk, Bool.and_eq_true] at h
    exact h.1
  | cons p r ih =>
    intro i B h
    cases p with
    | lit cs =>
      simp only [List.cons_append, followedOk] at h
      exact ih i B h
    | tok k =>
      simp only [List.cons_append, followedOk, Bool.and_eq_true] at h
      exact ih i B h.2

theorem subst_congr {ι : Type} (ph : ι → List Char) :
    ∀ (T : List (Piece ι)) (val val2 : ι → Option Int) (u : List Char),
      (∀ k ∈ toks T, val k = val2 k) → substWith ph val T u = substWith ph val2 T u := by
  intro T
  induction T with
  | nil => intro val val2 u _; rfl
  | cons p r ih =>
    intro val val2 u h
    cases p with
    | lit cs =>
      simp only [substWith]
      rw [ih val val2 u fun k hk => h k (by simp [toks, hk])]
    | tok k =>
      simp only [substWith]
      rw [ih val val2 u fun k2 hk2 => h k2 (by simp [toks, hk2])]
      rw [h k (by simp [toks])]

theorem tokChunk_contains {pat phk tl : List Char} (hp : pat.head? = some '#')
    (hphk : phk = '#' :: tl) (htl : ∀ c ∈ tl, c ≠ '#')
    (hsep : ∀ u, isPre pat (phk ++ u) ≠ true) (u : List Char) :
    containsSub pat (phk ++ u) = containsSub pat u := by
  subst hphk
  have hip : isPre pat ('#' :: (tl ++ u)) = false := by
    cases hb : isPre pat ('#' :: (tl ++ u)) with
    | false => rfl
    | true => exact absurd hb (hsep u)
  calc containsSub pat (('#' :: tl) ++ u)
      = (isPre pat ('#' :: (tl ++ u)) || containsSub pat (tl ++ u)) := rfl
    _ = containsSub pat u := by
        rw [hip, Bool.false_or]
        exact hashChunk_contains hp tl u htl

theorem tokChunk_replace {pat phk tl : List Char} (rep : List Char)
    (hp : pat.head? = some '#') (hphk : phk = '#' :: tl) (htl : ∀ c ∈ tl, c ≠ '#')
    (hsep : ∀ u, isPre pat (phk ++ u) ≠ true) (u : List Char) :
    replaceAll pat rep (phk ++ u) = phk ++ replaceAll pat rep u := by
  subst hphk
  have hip : isPre pat ('#' :: (tl ++ u)) = false := by
    cases hb : isPre pat ('#' :: (tl ++ u)) with
    | false => rfl
    | true => exact absurd hb (hsep u)
  simp only [List.cons_append]
  rw [replaceAll_cons_miss rep (isPre_false_dropPre hip),
    hashChunk_replace rep hp tl u htl]

theorem tokChunk_fnl {pat phk tl : List Char} (hp : pat.head? = some '#')
    (hphk : phk = '#' :: tl) (htl : ∀ c ∈ tl, c ≠ '#')
    (hsep : ∀ u, isPre pat (phk ++ u) ≠ true) (u : List Char)
    (hu : containsSub pat u = true) :
    find_next_letter (phk ++ u) pat = find_next_letter u pat := by
  subst hphk
  have hip : isPre pat ('#' :: (tl ++ u)) = false := by
    cases hb : isPre pat ('#' :: (tl ++ u)) with
    | false => rfl
    | true => exact absurd hb (hsep u)
  have hcc : containsSub pat (tl ++ u) = true := by
    rw [hashChunk_contains hp tl u htl]
    exact hu
  simp only [List.cons_append]
  rw [fnl_cons_step hip hcc, hashChunk_fnl hp tl u htl hu]

theorem walk_pct {ι : Type} (ph : ι → List Char) :
    ∀ (T : List (Piece ι)) (val : ι → Option Int) (u u2 : List Char),
      (∀ k ∈ toks T, ∃ tl, ph k = '#' :: tl) →
      ((u.head? = some '%') ↔ (u2.head? = some '%')) →
      (((substWith ph val T u).head? = some '%')
        ↔ ((substWith ph val T u2).head? = some '%')) := by
  intro T
  induction T with
  | nil => intro val u u2 _ h; exact h
  | cons p r ih =>
    intro val u u2 hP1 h
    have hP1r : ∀ k ∈ toks r, ∃ tl, ph k = '#' :: tl := by
      intro k hk
      apply hP1 k
      cases p <;> simp [toks, hk]
    cases p with
    | lit cs =>
      cases cs with
      | nil => simpa [substWith] using ih val u u2 hP1r h
      | cons c t => simp [substWith]
    | tok k =>
      rcases hP1 k (by simp [toks]) with ⟨tl, htl⟩
      simp only [substWith]
      cases hv : val k with
      | none =>
        rw [head?_append_ne_nil _ (by rw [htl]; simp),
          head?_append_ne_nil _ (by rw [htl]; simp), htl]
      | some v =>
        rw [head?_append_ne_nil _ (intChars_ne_nil _),
          head?_append_ne_nil _ (intChars_ne_nil _)]
        constructor
        · intro hc
          exfalso
          cases hh : (intChars (if (substWith ph val r u).head? = some '%'
              then v * 100 else v)).head? with
          | none => rw [hh] at hc; simp at hc
          | some c =>
            rw [hh] at hc
            simp only [Option.some_inj] at hc
            exact (intChars_head_ne _ c hh).1 hc
        · intro hc
          exfalso
          cases hh : (intChars (if (substWith ph val r u2).head? = some '%'
              then v * 100 else v)).head? with
          | none => rw [hh] at hc; simp at hc
          | some c =>
            rw [hh] at hc
            simp only [Option.some_inj] at hc
            exact (intChars_head_ne _ c hh).1 hc

theorem walk_contains {ι : Type} (ph : ι → List Char) (i : ι)
    (hpi : (ph i).head? = some '#') :
    ∀ (T : List (Piece ι)) (val : ι → Option Int) (u : List Char),
      litsClean T →
      (∀ k ∈ toks T, ∃ tl, ph k = '#' :: tl ∧ ∀ c ∈ tl, c ≠ '#') →
      (∀ k ∈ toks T, ∀ u2, isPre (ph i) (ph k ++ u2) ≠ true) →
      containsSub (ph i) (substWith ph val T u) = containsSub (ph i) u := by
  intro T
  induction T with
  | nil => intro val u _ _ _; rfl
  | cons p r ih =>
    intro val u hcl hP1 hsep
    have hclr : litsClean r := fun cs hm => hcl cs (List.mem_cons_of_mem _ hm)
    have hP1r : ∀ k ∈ toks r, ∃ tl, ph k = '#' :: tl ∧ ∀ c ∈ tl, c ≠ '#' := by
      intro k hk
      apply hP1 k
      cases p <;> simp [toks, hk]
    have hsepr : ∀ k ∈ toks r, ∀ u2, isPre (ph i) (ph k ++ u2) ≠ true := by
      intro k hk
      apply hsep k
      cases p <;> simp [toks, hk]
    cases p with
    | lit cs =>
      simp only [substWith]
      rw [hashChunk_contains hpi cs _ (hcl cs (List.mem_cons_self _ _)),
        ih val u hclr hP1r hsepr]
    | tok k =>
      simp only [substWith]
      cases hv : val k with
      | none =>
        rcases hP1 k (by simp [toks]) with ⟨tl, hphk, htl⟩
        rw [tokChunk_contains hpi hphk htl (hsep k (by simp [toks])) _,
          ih val u hclr hP1r hsepr]
      | some v =>
        rw [hashChunk_contains hpi _ _ (intChars_no_hash _),
          ih val u hclr hP1r hsepr]

theorem walk_replace {ι : Type} (ph : ι → List Char) (i : ι) (rep : List Char)
    (hpi : (ph i).head? = some '#') :
    ∀ (T : List (Piece ι)) (val : ι → Option Int) (u u2 : List Char),
      litsClean T →
      (∀ k ∈ toks T, ∃ tl, ph k = '#' :: tl ∧ ∀ c ∈ tl, c ≠ '#') →
      (∀ k ∈ toks T, ∀ u3, isPre (ph i) (ph k ++ u3) ≠ true) →
      replaceAll (ph i) rep u = u2 →
      ((u.head? = some '%') ↔ (u2.head? = some '%')) →
      replaceAll (ph i) rep (substWith ph val T u) = substWith ph val T u2 := by
  intro T
  induction T with
  | nil => intro val u u2 _ _ _ hr _; exact hr
  | cons p r ih =>
    intro val u u2 hcl hP1 hsep hr hpct
    have hclr : litsClean r := fun cs hm => hcl cs (List.mem_cons_of_mem _ hm)
    have hP1r : ∀ k ∈ toks r, ∃ tl, ph k = '#' :: tl ∧ ∀ c ∈ tl, c ≠ '#' := by
      intro k hk
      apply hP1 k
      cases p <;> simp [toks, hk]
    have hsepr : ∀ k ∈ toks r, ∀ u3, isPre (ph i) (ph k ++ u3) ≠ true := by
      intro k hk
      apply hsep k
      cases p <;> simp [toks, hk]
    cases p with
    | lit cs =>
      simp only [substWith]
      rw [hashChunk_replace rep hpi cs _ (hcl cs (List.mem_cons_self _ _)),
        ih val u u2 hclr hP1r hsepr hr hpct]
    | tok k =>
      simp only [substWith]
      cases hv : val k with
      | none =>
        rcases hP1 k (by simp [toks]) with ⟨tl, hphk, htl⟩
        rw [tokChunk_replace rep hpi hphk htl (hsep k (by simp [toks])) _,
          ih val u u2 hclr hP1r hsepr hr hpct]
      | some v =>
        have hpct2 := walk_pct ph r val u u2 (fun k2 hk2 => ⟨(hP1r k2 hk2).choose,
          (hP1r k2 hk2).choose_spec.1⟩) hpct
        have hy : (if (substWith ph val r u).head? = some '%' then v * 100 else v)
            = (if (substWith ph val r u2).head? = some '%' then v * 100 else v) :=
          if_congr hpct2 rfl rfl
        rw [hashChunk_replace rep hpi _ _ (intChars_no_hash _),
          ih val u u2 hclr hP1r hsepr hr hpct, hy]

theorem walk_fnl {ι : Type} (ph : ι → List Char) (i : ι)
    (hpi : (ph i).head? = some '#') :
    ∀ (T : List (Piece ι)) (val : ι → Option Int) (u : List Char),
      litsClean T →
      (∀ k ∈ toks T, ∃ tl, ph k = '#' :: tl ∧ ∀ c ∈ tl, c ≠ '#') →
      (∀ k ∈ toks T, ∀ u2, isPre (ph i) (ph k ++ u2) ≠ true) →
      containsSub (ph i) u = true →
      find_next_letter (substWith ph val T u) (ph i) = find_next_letter u (ph i) := by
  intro T
  induction T with
  | nil => intro val u _ _ _ _; rfl
  | cons p r ih =>
    intro val u hcl hP1 hsep hu
    have hclr : litsClean r := fun cs hm => hcl cs (List.mem_cons_of_mem _ hm)
    have hP1r : ∀ k ∈ toks r, ∃ tl, ph k = '#' :: tl ∧ ∀ c ∈ tl, c ≠ '#' := by
      intro k hk
      apply hP1 k
      cases p <;> simp [toks, hk]
    have hsepr : ∀ k ∈ toks r, ∀ u2, isPre (ph i) (ph k ++ u2) ≠ true := by
      intro k hk
      apply hsep k
      cases p <;> simp [toks, hk]
    have hinner : containsSub (ph i) (substWith ph val r u) = true := by
      rw [walk_contains ph i hpi r val u hclr hP1r hsepr]
      exact hu
    cases p with
    | lit cs =>
      simp only [substWith]
      rw [hashChunk_fnl hpi cs _ (hcl cs (List.mem_cons_self _ _)) hinner,
        ih val u hclr hP1r hsepr hu]
    | tok k =>
      simp only [substWith]
      cases hv : val k with
      | none =>
        rcases hP1 k (by simp [toks]) with ⟨tl, hphk, htl⟩
        rw [tokChunk_fnl hpi hphk htl (hsep k (by simp [toks])) _ hinner,
          ih val u hclr hP1r hsepr hu]
      | some v =>
        rw [hashChunk_fnl hpi _ _ (intChars_no_hash _) hinner,
          ih val u hclr hP1r hsepr hu]

theorem subst_step {ι : Type} [DecidableEq ι] (ph : ι → List Char) (i : ι) (v : Int)
    (T : List (Piece ι)) (val : ι → Option Int)
    (hP1 : ∀ k ∈ toks T, ∃ tl, ph k = '#' :: tl ∧ ∀ c ∈ tl, c ≠ '#')
    (hP1i : ∃ tl, ph i = '#' :: tl ∧ ∀ c ∈ tl, c ≠ '#')
    (hsepT : ∀ k ∈ toks T, ∀ u, isPre (ph i) (ph k ++ u) = true → i = k)
    (hclean : litsClean T) (hnd : (toks T).Nodup) (hfol : followedOk T = true)
    (hvi : val i = none) :
    (Piece.tok i ∉ T → containsSub (ph i) (substPieces ph val T) = false)
    ∧ (Piece.tok i ∈ T →
        containsSub (ph i) (substPieces ph val T) = true
        ∧ ∃ ch, find_next_letter (substPieces ph val T) (ph i) = some ch
            ∧ replaceAll (ph i) (intChars (if ch = '%' then v * 100 else v))
                (substPieces ph val T)
              = substPieces ph (fun k => if k = i then some v else val k) T) := by
  rcases hP1i with ⟨tli, hphi, htli⟩
  have hpiHead : (ph i).head? = some '#' := by rw [hphi]; rfl
  have hphiNe : ph i ≠ [] := by rw [hphi]; simp
  have hipnil : isPre (ph i) [] = false := by
    rw [hphi]
    rfl
  constructor
  · intro hmem
    have hsep : ∀ k ∈ toks T, ∀ u2, isPre (ph i) (ph k ++ u2) ≠ true := by
      intro k hk u2 ht
      have hik := hsepT k hk u2 ht
      rw [hik] at hmem
      exact hmem ((tok_mem_toks T k).mpr hk)
    unfold substPieces
    rw [walk_contains ph i hpiHead T val [] hclean hP1 hsep]
    simpa [containsSub] using hipnil
  · intro hmem
    rcases List.append_of_mem hmem with ⟨T1, T2, hsplit⟩
    subst hsplit
    have htk : toks (T1 ++ Piece.tok i :: T2) = toks T1 ++ i :: toks T2 := by
      rw [toks_append]
      rfl
    rw [htk] at hnd hP1 hsepT
    rcases List.nodup_append.mp hnd with ⟨hnd1, hnd2, hdisj⟩
    have hiT1 : i ∉ toks T1 := fun hi => hdisj hi (List.mem_cons_self _ _)
    have hiT2 : i ∉ toks T2 := (List.nodup_cons.mp hnd2).1
    have hcl1 : litsClean T1 := fun cs hm c hc =>
      hclean cs (List.mem_append_left _ hm) c hc
    have hcl2 : litsClean T2 := fun cs hm c hc =>
      hclean cs (List.mem_append_right _ (List.mem_cons_of_mem _ hm)) c hc
    have hP11 : ∀ k ∈ toks T1, ∃ tl, ph k = '#' :: tl ∧ ∀ c ∈ tl, c ≠ '#' :=
      fun k hk => hP1 k (List.mem_append_left _ hk)
    have hP12 : ∀ k ∈ toks T2, ∃ tl, ph k = '#' :: tl ∧ ∀ c ∈ tl, c ≠ '#' :=
      fun k hk => hP1 k (List.mem_append_right _ (List.mem_cons_of_mem _ hk))
    have hsep1 : ∀ k ∈ toks T1, ∀ u2, isPre (ph i) (ph k ++ u2) ≠ true := by
      intro k hk u2 ht
      have := hsepT k (List.mem_append_left _ hk) u2 ht
      rw [this] at hiT1
      exact hiT1 hk
    have hsep2 : ∀ k ∈ toks T2, ∀ u2, isPre (ph i) (ph k ++ u2) ≠ true := by
      intro k hk u2 ht
      have := hsepT k (List.mem_append_right _ (List.mem_cons_of_mem _ hk)) u2 ht
      rw [this] at hiT2
      exact hiT2 hk
    have hM : substPieces ph val (T1 ++ Piece.tok i :: T2)
        = substWith ph val T1 (ph i ++ substWith ph val T2 []) := by
      unfold substPieces
      rw [substWith_append]
      congr 1
      simp [substWith, hvi]
    have hself : containsSub (ph i) (ph i ++ substWith ph val T2 []) = true :=
      containsSub_self_append _ _
    have hcsub : containsSub (ph i) (substPieces ph val (T1 ++ Piece.tok i :: T2)) = true := by
      rw [hM, walk_contains ph i hpiHead T1 val _ hcl1 hP11 hsep1]
      exact hself
    refine ⟨hcsub, ?_⟩
    have hany : T2.any pieceNonempty = true := followedOk_decomp T1 i T2 hfol
    have hM2ne : substWith ph val T2 [] ≠ [] := by
      apply substWith_ne_nil ph val T2 _ hany
      intro k hk
      rcases hP12 k hk with ⟨tl, hphk, _⟩
      rw [hphk]
      simp
    cases hM2 : substWith ph val T2 [] with
    | nil => exact absurd hM2 hM2ne
    | cons ch rest2 =>
      refine ⟨ch, ?_, ?_⟩
      · rw [hM, walk_fnl ph i hpiHead T1 val _ hcl1 hP11 hsep1 hself, fnl_at_tok, hM2]
        rfl
      · have hnocc2 : containsSub (ph i) (substWith ph val T2 []) = false := by
          rw [walk_contains ph i hpiHead T2 val [] hcl2 hP12 hsep2]
          simpa [containsSub] using hipnil
        have hrne : intChars (if ch = '%' then v * 100 else v) ≠ [] := intChars_ne_nil _
        have hr : replaceAll (ph i) (intChars (if ch = '%' then v * 100 else v))
            (ph i ++ substWith ph val T2 [])
            = intChars (if ch = '%' then v * 100 else v) ++ substWith ph val T2 [] := by
          rw [replaceAll_self_append _ hphiNe,
            replaceAll_of_not_contains _ _ hnocc2]
        have hpct : ((ph i ++ substWith ph val T2 []).head? = some '%')
            ↔ ((intChars (if ch = '%' then v * 100 else v)
                ++ substWith ph val T2 []).head? = some '%') := by
          rw [head?_append_ne_nil _ hphiNe, hphi,
            head?_append_ne_nil _ hrne]
          constructor
          · intro hc; simp at hc
          · intro hc
            exfalso
            cases hh : (intChars (if ch = '%' then v * 100 else v)).head? with
            | none => rw [hh] at hc; simp at hc
            | some c2 =>
              rw [hh] at hc
              simp only [Option.some_inj] at hc
              exact (intChars_head_ne _ c2 hh).1 hc
        have hrepl : replaceAll (ph i) (intChars (if ch = '%' then v * 100 else v))
            (substPieces ph val (T1 ++ Piece.tok i :: T2))
            = substWith ph val T1 (intChars (if ch = '%' then v * 100 else v)
                ++ substWith ph val T2 []) := by
          rw [hM]
          exact walk_replace ph i _ hpiHead T1 val _ _ hcl1 hP11 hsep1 hr hpct
        rw [hrepl]
        -- now identify with the substituted rendering under the extended valuation
        have hcongr2 : substWith ph (fun k => if k = i then some v else val k) T2 []
            = substWith ph val T2 [] := by
          apply subst_congr
          intro k hk
          rw [if_neg]
          intro he
          rw [he] at hk
          exact hiT2 hk
        have hdecision : (if (substWith ph val T2 []).head? = some '%' then v * 100 else v)
            = (if ch = '%' then v * 100 else v) := by
          rw [hM2]
          apply if_congr _ rfl rfl
          simp
        have hRHS : substPieces ph (fun k => if k = i then some v else val k)
            (T1 ++ Piece.tok i :: T2)
            = substWith ph (fun k => if k = i then some v else val k) T1
                (intChars (if ch = '%' then v * 100 else v) ++ substWith ph val T2 []) := by
          unfold substPieces
          rw [substWith_append]
          congr 1
          simp only [substWith, eq_self_iff_true, if_true]
          rw [hcongr2, hdecision]
        rw [hRHS]
        apply subst_congr
        intro k hk
        rw [if_neg]
        intro he
        rw [he] at hk
        exact hiT1 hk

theorem goList_subst : ∀ (vs : List Int) (i0 : Nat) (T : List (Piece Nat))
    (val : Nat → Option Int),
    litsClean T → (toks T).Nodup → followedOk T = true →
    (∀ k, i0 ≤ k → val k = none) →
    goList vs i0 (substPieces phList val T)
      = some (substPieces phList (fun k => if k < i0 then val k else vs[k - i0]?) T) := by
  intro vs
  induction vs with
  | nil =>
    intro i0 T val hcl hnd hfol hnone
    simp only [goList, Option.some_inj]
    apply subst_congr
    intro k _
    by_cases hk : k < i0
    · simp [hk]
    · simp only [if_neg hk, List.getElem?_nil]
      exact hnone k (by omega)
  | cons v vs2 ih =>
    intro i0 T val hcl hnd hfol hnone
    have hP1 : ∀ k ∈ toks T, ∃ tl, phList k = '#' :: tl ∧ ∀ c ∈ tl, c ≠ '#' :=
      fun k _ => ⟨_, (phList_facts k).1, (phList_facts k).2⟩
    have hP1i : ∃ tl, phList i0 = '#' :: tl ∧ ∀ c ∈ tl, c ≠ '#' :=
      ⟨_, (phList_facts i0).1, (phList_facts i0).2⟩
    have hsepT : ∀ k ∈ toks T, ∀ u, isPre (phList i0) (phList k ++ u) = true → i0 = k :=
      fun k _ u h => phList_sep i0 k u h
    have hstep := subst_step phList i0 v T val hP1 hP1i hsepT hcl hnd hfol (hnone i0 le_rfl)
    have hval2 : ∀ k, i0 + 1 ≤ k →
        (fun k2 => if k2 = i0 then some v else val k2) k = none := by
      intro k hk
      have hne : k ≠ i0 := by omega
      simp only [if_neg hne]
      exact hnone k (by omega)
    by_cases hmem : Piece.tok i0 ∈ T
    · obtain ⟨hcsub, ch, hfnl, hrepl⟩ := hstep.2 hmem
      simp only [goList, hcsub, eq_self_iff_true, if_true, hfnl]
      rw [hrepl, ih (i0 + 1) T (fun k2 => if k2 = i0 then some v else val k2)
        hcl hnd hfol hval2]
      simp only [Option.some_inj]
      apply subst_congr
      intro k _
      by_cases hk : k < i0
      · have h1 : k < i0 + 1 := by omega
        have h2 : k ≠ i0 := by omega
        rw [if_pos h1, if_neg h2, if_pos hk]
      · by_cases hk2 : k = i0
        · subst hk2
          have h1 : k < k + 1 := by omega
          rw [if_pos h1, if_pos rfl, if_neg (lt_irrefl k)]
          simp
        · have h1 : ¬ k < i0 + 1 := by omega
          rw [if_neg h1, if_neg hk,
            show k - i0 = (k - (i0 + 1)) + 1 from by omega, List.getElem?_cons_succ]
    · have hncsub := hstep.1 hmem
      simp only [goList, hncsub, Bool.false_eq_true, if_false]
      rw [ih (i0 + 1) T val hcl hnd hfol (fun k hk => hnone k (by omega))]
      simp only [Option.some_inj]
      apply subst_congr
      intro k hkmem
      have hkne : k ≠ i0 := by
        intro he
        subst he
        exact hmem ((tok_mem_toks T k).mpr hkmem)
      by_cases hk : k < i0
      · have h1 : k < i0 + 1 := by omega
        rw [if_pos h1, if_pos hk]
      · have h1 : ¬ k < i0 + 1 := by omega
        rw [if_neg h1, if_neg hk,
          show k - i0 = (k - (i0 + 1)) + 1 from by omega, List.getElem?_cons_succ]

theorem extendVal_cons_ne (val : List Char → Option Int) (kk : List Char) (vv : List Int)
    (rest : List (List Char × List Int)) (k : List Char) (h : kk ≠ k) :
    extendVal val ((kk, vv) :: rest) k = extendVal val rest k := by
  simp only [extendVal, List.find?_cons]
  rw [show ((kk, vv).1 == k) = false from beq_eq_false_iff_ne.mpr h]

theorem extendVal_cons_self (val : List Char → Option Int) (kk : List Char) (vv : List Int)
    (rest : List (List Char × List Int)) :
    extendVal val ((kk, vv) :: rest) kk = vv.head? := by
  simp only [extendVal, List.find?_cons]
  rw [show ((kk, vv).1 == kk) = true from by simp]

theorem extendVal_not_found (val : List Char → Option Int)
    (rest : List (List Char × List Int)) (k : List Char)
    (h : rest.find? (fun kv => kv.1 == k) = none) :
    extendVal val rest k = val k := by
  simp only [extendVal, h]

theorem extendVal_congr (val val2 : List Char → Option Int)
    (rest : List (List Char × List Int)) (k : List Char) (h : val k = val2 k) :
    extendVal val rest k = extendVal val2 rest k := by
  simp only [extendVal]
  cases rest.find? (fun kv => kv.1 == k) <;> simp [h]

theorem goDict_subst : ∀ (kvs : List (List Char × List Int))
    (T : List (Piece (List Char))) (val : List Char → Option Int),
    litsClean T → (toks T).Nodup → followedOk T = true →
    (∀ k ∈ toks T, ∀ c ∈ k, c ≠ '#' ∧ c ≠ '[') →
    (∀ kv ∈ kvs, (∀ c ∈ kv.1, c ≠ '#' ∧ c ≠ '[') ∧ kv.2 ≠ []) →
    (kvs.map Prod.fst).Nodup →
    (∀ kv ∈ kvs, val kv.1 = none) →
    goDict kvs (substPieces phKey val T)
      = some (substPieces phKey (extendVal val kvs) T) := by
  intro kvs
  induction kvs with
  | nil =>
    intro T val _ _ _ _ _ _ _
    simp only [goDict, Option.some_inj]
    apply subst_congr
    intro k _
    rfl
  | cons kv0 rest ih =>
    intro T val hcl hnd hfol hkeysT hkvs hkeyNd hvalNone
    obtain ⟨kk, vv⟩ := kv0
    have hkk := hkvs (kk, vv) (List.mem_cons_self _ _)
    cases vv with
    | nil => exact absurd rfl hkk.2
    | cons v vs2 =>
      have hkkClean : ∀ c ∈ kk, c ≠ '#' ∧ c ≠ '[' := hkk.1
      have hkkHash : ∀ c ∈ kk, c ≠ '#' := fun c hc => (hkkClean c hc).1
      have hkkBr : ∀ c ∈ kk, c ≠ '[' := fun c hc => (hkkClean c hc).2
      have hP1 : ∀ k ∈ toks T, ∃ tl, phKey k = '#' :: tl ∧ ∀ c ∈ tl, c ≠ '#' :=
        fun k hk => ⟨_, (phKey_facts k (fun c hc => (hkeysT k hk c hc).1)).1,
          (phKey_facts k (fun c hc => (hkeysT k hk c hc).1)).2⟩
      have hP1i : ∃ tl, phKey kk = '#' :: tl ∧ ∀ c ∈ tl, c ≠ '#' :=
        ⟨_, (phKey_facts kk hkkHash).1, (phKey_facts kk hkkHash).2⟩
      have hsepT : ∀ k ∈ toks T, ∀ u, isPre (phKey kk) (phKey k ++ u) = true → kk = k :=
        fun k hk u h => phKey_sep kk k u hkkBr (fun c hc => (hkeysT k hk c hc).2) h
      rw [List.map_cons, List.nodup_cons] at hkeyNd
      have hkkNotRest : kk ∉ rest.map Prod.fst := hkeyNd.1
      have hkvsR : ∀ kv ∈ rest, (∀ c ∈ kv.1, c ≠ '#' ∧ c ≠ '[') ∧ kv.2 ≠ [] :=
        fun kv hm => hkvs kv (List.mem_cons_of_mem _ hm)
      have hkeyNdR : (rest.map Prod.fst).Nodup := hkeyNd.2
      have hstep := subst_step phKey kk v T val hP1 hP1i hsepT hcl hnd hfol
        (hvalNone (kk, v :: vs2) (List.mem_cons_self _ _))
      have hfindRest : rest.find? (fun kv => kv.1 == kk) = none := by
        rw [List.find?_eq_none]
        intro kv hm
        simp only [beq_iff_eq]
        intro he
        exact hkkNotRest (by rw [← he]; exact List.mem_map_of_mem _ hm)
      by_cases hmem : Piece.tok kk ∈ T
      · obtain ⟨hcsub, ch, hfnl, hrepl⟩ := hstep.2 hmem
        have hval2 : ∀ kv ∈ rest,
            (fun k2 => if k2 = kk then some v else val k2) kv.1 = none := by
          intro kv hm
          have hne : kv.1 ≠ kk := by
            intro he
            exact hkkNotRest (by rw [← he]; exact List.mem_map_of_mem _ hm)
          simp only [if_neg hne]
          exact hvalNone kv (List.mem_cons_of_mem _ hm)
        simp only [goDict, List.head?_cons, hcsub, eq_self_iff_true, if_true, hfnl]
        rw [hrepl, ih T (fun k2 => if k2 = kk then some v else val k2) hcl hnd hfol
          hkeysT hkvsR hkeyNdR hval2]
        simp only [Option.some_inj]
        apply subst_congr
        intro k _
        by_cases hk : k = kk
        · subst hk
          rw [extendVal_cons_self, extendVal_not_found _ _ _ hfindRest]
          simp
        · rw [extendVal_cons_ne _ _ _ _ _ (fun he => hk he.symm)]
          exact extendVal_congr _ _ rest k (if_neg hk)
      · have hncsub := hstep.1 hmem
        simp only [goDict, List.head?_cons, hncsub, Bool.false_eq_true, if_false]
        rw [ih T val hcl hnd hfol hkeysT hkvsR hkeyNdR
          (fun kv hm => hvalNone kv (List.mem_cons_of_mem _ hm))]
        simp only [Option.some_inj]
        apply subst_congr
        intro k hkmem
        have hkne : k ≠ kk := by
          intro he
          subst he
          exact hmem ((tok_mem_toks T k).mpr hkmem)
        rw [extendVal_cons_ne _ _ _ _ _ (fun he => hkne he.symm)]

/-- C1 (amended). `replace_placeholders` with `None` params returns the text
unchanged. For text that is a placeholder template — literal runs free of
`#`, each referenced token occurring at most once and followed by at least
one character — the positional branch substitutes each token `#i[k]` of the
text by `str(ps[k])`, multiplied by 100 exactly when the character just
after the token is `%`; indices of `ps` with no token in the text are
ignored without error. The keyed branch does the same for tokens
`#<key>[i]` using the first value of the key's list, provided keys are free
of `#` and `[`, pairwise distinct, and carry nonempty value lists. (The
original claim, quantified over every string, fails: the code decides the
%-multiplication once per token from its first occurrence only, see the
counterexample.) -/
theorem c1_theorem :
    (∀ s : List Char, replace_placeholders s .noneP = some s)
    ∧ (∀ (T : List (Piece Nat)) (ps : List Int),
        litsClean T → (toks T).Nodup → followedOk T = true →
        replace_placeholders (render phList T) (.posP ps)
          = some (substPieces phList (fun k => ps[k]?) T))
    ∧ (∀ (T : List (Piece (List Char))) (kvs : List (List Char × List Int)),
        litsClean T → (toks T).Nodup → followedOk T = true →
        (∀ k ∈ toks T, ∀ c ∈ k, c ≠ '#' ∧ c ≠ '[') →
        (∀ kv ∈ kvs, (∀ c ∈ kv.1, c ≠ '#' ∧ c ≠ '[') ∧ kv.2 ≠ []) →
        (kvs.map Prod.fst).Nodup →
        replace_placeholders (render phKey T) (.keyP kvs)
          = some (substPieces phKey (extendVal (fun _ => none) kvs) T)) := by
  refine ⟨fun s => rfl, ?_, ?_⟩
  · intro T ps hcl hnd hfol
    have hren : render phList T = substPieces phList (fun _ => none) T := by
      rw [substPieces, substWith_none, List.append_nil]
    show goList ps 0 (render phList T) = _
    rw [hren, goList_subst ps 0 T (fun _ => none) hcl hnd hfol (fun k _ => rfl)]
    simp only [Option.some_inj]
    apply subst_congr
    intro k _
    simp
  · intro T kvs hcl hnd hfol hkeysT hkvs hkeyNd
    have hren : render phKey T = substPieces phKey (fun _ => none) T := by
      rw [substPieces, substWith_none, List.append_nil]
    show goDict kvs (render phKey T) = _
    rw [hren, goDict_subst kvs T (fun _ => none) hcl hnd hfol hkeysT hkvs hkeyNd
      (fun kv _ => rfl)]

/-- Witness for C1: one concrete instance of each of the three branches. -/
theorem c1_witness :
    replace_placeholders ['x'] .noneP = some ['x']
    ∧ replace_placeholders (render phList [Piece.tok 0, Piece.lit ['%']])
        (.posP [(3 : Int)])
      = some (substPieces phList (fun k => ([(3 : Int)])[k]?)
          [Piece.tok 0, Piece.lit ['%']])
    ∧ replace_placeholders (render phKey [Piece.tok ['l', 'v'], Piece.lit ['.']])
        (.keyP [(['l', 'v'], [(5 : Int)])])
      = some (substPieces phKey
          (extendVal (fun _ => none) [(['l', 'v'], [(5 : Int)])])
          [Piece.tok ['l', 'v'], Piece.lit ['.']]) := by
  have hclP : litsClean [Piece.tok (0 : Nat), Piece.lit ['%']] := by
    intro cs hm c hc
    rcases List.mem_cons.mp hm with h | hm2
    · cases h
    · rcases List.mem_cons.mp hm2 with h | hm3
      · cases h
        simp only [List.mem_singleton] at hc
        subst hc
        decide
      · cases hm3
  have hclK : litsClean [Piece.tok ['l', 'v'], Piece.lit ['.']] := by
    intro cs hm c hc
    rcases List.mem_cons.mp hm with h | hm2
    · cases h
    · rcases List.mem_cons.mp hm2 with h | hm3
      · cases h
        simp only [List.mem_singleton] at hc
        subst hc
        decide
      · cases hm3
  refine ⟨c1_theorem.1 ['x'], ?_, ?_⟩
  · exact c1_theorem.2.1 _ _ hclP (by decide) (by decide)
  · exact c1_theorem.2.2 _ _ hclK (by decide) (by decide) (by decide) (by decide)
      (by decide)

end Yatta
